import Mathlib

/-!
# chenquan/stream: a shallow embedding

Streams are handles over Go channels.  A producer goroutine writes a new channel while it
ranges over the channel of its receiver; the embedding records, for every channel, what its
reader gets over the channel's whole life.

* `int` and `int64` are 64 bits wide (amd64, arm64): a counter is an `Int` kept in range by
  `wrap64` after every `++` and `--`.
* A goroutine that waits forever on a channel is the outcome `Outcome.block`.
-/

namespace GoStream

/-! ## Machine integers -/

/-- Two's complement wrap-around of a 64-bit signed integer. -/
def wrap64 (x : Int) : Int :=
  (x + 2 ^ 63) % 2 ^ 64 - 2 ^ 63

/-! ## Channels and streams -/

/-- What the reader of a channel gets over the channel's life: the values received, in the
order of their receipt, and whether the channel is closed behind them.  A `range` loop over
a channel that is never closed blocks after the last value. -/
structure Chan (α : Type) where
  /-- Capacity given to `make`. -/
  cap : Nat
  /-- Values a reader receives, in order. -/
  items : List α
  /-- Whether `close` is called after the last value. -/
  closed : Bool
deriving DecidableEq, Repr

/-- Go `Stream struct { source <-chan interface{} }`, held by pointer.  `ptr` is the address of
the struct (what `==` compares on `*Stream`), `chan` the address of the channel stored in
`source`, and `source` what a reader of that channel receives. -/
structure Stream (α : Type) where
  ptr : Nat
  chan : Nat
  source : Chan α
deriving DecidableEq, Repr

/-- How a call ends: it returns a value, it panics, or it never returns because it waits on
a channel forever. -/
inductive Outcome (β : Type) where
  | ret (v : β)
  | panic (msg : String)
  | block
deriving DecidableEq, Repr

/-- One operation of a producer on the channel it writes. -/
inductive ChanOp (α : Type) where
  | send (item : α)
  | close
deriving DecidableEq, Repr

/-- Values sent before the first `close`. -/
def sent {α : Type} : List (ChanOp α) → List α
  | [] => []
  | ChanOp.send x :: t => x :: sent t
  | ChanOp.close :: _ => []

/-- Whether the producer closes the channel. -/
def closes {α : Type} : List (ChanOp α) → Bool
  | [] => false
  | ChanOp.send _ :: t => closes t
  | ChanOp.close :: _ => true

/-- The channel made with capacity `cap` and written by a producer whose operations on it
are `t`, as its reader sees it. -/
def Chan.ofTrace {α : Type} (cap : Nat) (t : List (ChanOp α)) : Chan α :=
  { cap := cap, items := sent t, closed := closes t }

/-- Go `Range(source)`: a new `Stream` struct, allocated at `ptr`, around the channel at
address `chan`. -/
def Range {α : Type} (source : Chan α) (chan ptr : Nat) : Stream α :=
  { ptr := ptr, chan := chan, source := source }

/-- The channel `Of(items...)` makes: capacity `len(items)`, loaded with the items, closed. -/
def Of {α : Type} (items : List α) : Chan α :=
  { cap := items.length, items := items, closed := true }

/-! ## The size limit of `make`

`make(chan T, size)` is the function `makechan` of the Go runtime (`runtime/chan.go`):

    mem, overflow := math.MulUintptr(elem.Size_, uintptr(size))
    if overflow || mem > maxAlloc-hchanSize || size < 0 {
        panic(plainError("makechan: size out of range"))
    }

The constants are those of a 64-bit platform with a heap of 48 address bits (linux/amd64).
A `make` within the limit is taken to find the memory it asks for. -/

/-- The constant `maxAlloc` of the Go runtime: `1 << 48`. -/
def maxAlloc : Int := 2 ^ 48

/-- The constant `hchanSize` of the Go runtime: the 96 bytes of the header of a channel. -/
def hchanSize : Int := 96

/-- Size in bytes of a value of type `interface{}`: two words. -/
def interfaceSize : Int := 16

/-- Whether `make(chan interface{}, size)` panics with `makechan: size out of range`.  The
product is taken in the integers: it overflows a `uintptr` only when it is above the limit. -/
def makechanOutOfRange (size : Int) : Bool :=
  decide (size < 0 ∨ interfaceSize * size > maxAlloc - hchanSize)

/-! ## Calls that start a goroutine -/

/-- A call of a method that makes a stream from its receiver, when it has ended: how it
ended, and the values that the goroutine it has started receives from the source of the
receiver.  The calls themselves do not receive. -/
structure Call (α β : Type) where
  outcome : Outcome β
  received : List α
deriving DecidableEq, Repr

/-- Go `panic(msg)`: the call ends there, before any `go` statement. -/
def Call.panics {α β : Type} (msg : String) : Call α β :=
  { outcome := Outcome.panic msg, received := [] }

/-- Go `return v` in a call that has started no goroutine. -/
def Call.returns {α β : Type} (v : β) : Call α β :=
  { outcome := Outcome.ret v, received := [] }

/-- The statements `source := make(chan interface{})`, `go func() { ... }()` and
`return Range(source)`, where the goroutine ranges over `src` and its operations on `source`
are `run src`.  The `range` loops have no `break` and no `return`: the goroutine receives
every value `src` delivers. -/
def Call.go {α β : Type} (run : Chan α → List (ChanOp β)) (src : Chan α) : Call α (Chan β) :=
  { outcome := Outcome.ret (Chan.ofTrace 0 (run src)), received := src.items }

/-! ## Ring -/

/-- Modelled from the spec: the `Ring` type (`NewRing`, `Add`, `Take`) is used by `Tail` but
its file is not part of the sources.  Spec §3, §4.2: backing storage of size `N`, a write
cursor, and a count of valid slots (at most `N`). -/
structure Ring (α : Type) where
  elements : List (Option α)
  index : Nat
  count : Nat
deriving DecidableEq, Repr

/-- Modelled from the spec: `NewRing(n)` fails for `n < 1`, and otherwise gives a ring
whose storage has `n` slots, none of them valid. -/
def NewRing {α : Type} (n : Int) : Outcome (Ring α) :=
  if n < 1 then Outcome.panic "n should be greater than 0"
  else Outcome.ret { elements := List.replicate n.toNat none, index := 0, count := 0 }

/-- Modelled from the spec: `Add(item)` stores `item` at the write position, advances the
position modulo `N`, and increments the valid count up to a ceiling of `N`. -/
def Ring.Add {α : Type} (r : Ring α) (item : α) : Ring α :=
  { elements := r.elements.set r.index (some item)
    index := (r.index + 1) % r.elements.length
    count := min (r.count + 1) r.elements.length }

/-- Modelled from the spec: `Take()` returns the valid items, oldest first: from slot 0 while
the ring has not filled up, from the write position once it has. -/
def Ring.Take {α : Type} (r : Ring α) : List α :=
  let start := if r.count < r.elements.length then 0 else r.index
  (List.range r.count).filterMap
    (fun i => (r.elements.getD ((start + i) % r.elements.length) none))

/-- State of a ring after the items `xs` were added to a new ring of `N` slots: the last
`N` items of `xs` sit at their positions modulo `N`. -/
structure RingInv {α : Type} (N : Nat) (xs : List α) (r : Ring α) : Prop where
  len : r.elements.length = N
  idx : r.index = xs.length % N
  cnt : r.count = min xs.length N
  slot : ∀ i, i < xs.length → xs.length ≤ i + N → r.elements[i % N]? = some xs[i]?

/-! ## Producer goroutines -/

/-- The loop `for item := range src { body }` run over the values `src` delivers: the loop state
after the last value and the operations done on the written channel. -/
def rangeLoop {α β σ : Type} (body : σ → α → σ × List (ChanOp β)) :
    σ → List α → σ × List (ChanOp β)
  | st, [] => (st, [])
  | st, item :: rest =>
    let r := body st item
    let r' := rangeLoop body r.1 rest
    (r'.1, r.2 ++ r'.2)

/-- A goroutine `for item := range src { body }; after`: the code after the loop runs only
when the source is closed, otherwise the goroutine waits for a next value forever. -/
def producer {α β σ : Type} (body : σ → α → σ × List (ChanOp β)) (init : σ)
    (after : σ → List (ChanOp β)) (src : Chan α) : List (ChanOp β) :=
  let r := rangeLoop body init src.items
  if src.closed then r.2 ++ after r.1 else r.2

/-! ## Tail -/

/-- The goroutine of `Tail`: it adds every source item to a ring of capacity `n`; when the
source is closed it sends what `Take` returns and closes its channel. -/
def tailProducer {α : Type} (n : Int) (src : Chan α) : List (ChanOp α) :=
  match (NewRing n : Outcome (Ring α)) with
  | Outcome.ret ring =>
    producer (fun ring item => (ring.Add item, [])) ring
      (fun ring => ring.Take.map ChanOp.send ++ [ChanOp.close]) src
  | _ => []

/-- Go `func (s *Stream) Tail(n int64) *Stream`, the call: the test of `n`, then the
goroutine. -/
def Stream.TailCall {α : Type} (s : Stream α) (n : Int) : Call α (Chan α) :=
  if n < 1 then Call.panics "n should be greater than 0"
  else Call.go (tailProducer n) s.source

/-- Go `func (s *Stream) Tail(n int64) *Stream`: the channel of the returned stream. -/
def Stream.Tail {α : Type} (s : Stream α) (n : Int) : Outcome (Chan α) :=
  (s.TailCall n).outcome

/-! ## Head, Skip, Limit -/

/-- Body of the loop of `Head`: `n--`, send while `n >= 0`, close when `n == 0`. -/
def headBody {α : Type} (n : Int) (item : α) : Int × List (ChanOp α) :=
  let n := wrap64 (n - 1)
  (n, (if n ≥ 0 then [ChanOp.send item] else []) ++ (if n = 0 then [ChanOp.close] else []))

/-- The goroutine of `Head`; after the loop it closes the channel if `n > 0`. -/
def headProducer {α : Type} (n : Int) (src : Chan α) : List (ChanOp α) :=
  producer headBody n (fun n => if n > 0 then [ChanOp.close] else []) src

/-- Go `func (s *Stream) Head(n int64) *Stream`, the call: the test of `n`, then the
goroutine, whose loop goes on after it has closed its channel. -/
def Stream.HeadCall {α : Type} (s : Stream α) (n : Int) : Call α (Chan α) :=
  if n < 1 then Call.panics "n must be greater than 0"
  else Call.go (headProducer n) s.source

/-- Go `func (s *Stream) Head(n int64) *Stream`: the channel of the returned stream. -/
def Stream.Head {α : Type} (s : Stream α) (n : Int) : Outcome (Chan α) :=
  (s.HeadCall n).outcome

/-- Body of the loop of `Skip`: send when `i >= size`, then `i++`. -/
def skipBody {α : Type} (size : Int) (i : Int) (item : α) : Int × List (ChanOp α) :=
  (wrap64 (i + 1), if i ≥ size then [ChanOp.send item] else [])

/-- The goroutine of `Skip`. -/
def skipProducer {α : Type} (size : Int) (src : Chan α) : List (ChanOp α) :=
  producer (skipBody size) 0 (fun _ => [ChanOp.close]) src

/-- Go `func (s *Stream) Skip(size int) *Stream`, the call: `size == 0` returns the receiver,
`size < 0` panics, and any other `size` starts the goroutine. -/
def Stream.SkipCall {α : Type} (s : Stream α) (size : Int) : Call α (Chan α) :=
  if size = 0 then Call.returns s.source
  else if size < 0 then Call.panics "size must be greater than -1"
  else Call.go (skipProducer size) s.source

/-- Go `func (s *Stream) Skip(size int) *Stream`: the channel of the returned stream, which for
`size == 0` is the receiver itself. -/
def Stream.Skip {α : Type} (s : Stream α) (size : Int) : Outcome (Chan α) :=
  (s.SkipCall size).outcome

/-- Body of the loop of `Limit`: send when `i != size`, then `i++`. -/
def limitBody {α : Type} (size : Int) (i : Int) (item : α) : Int × List (ChanOp α) :=
  (wrap64 (i + 1), if i ≠ size then [ChanOp.send item] else [])

/-- The goroutine of `Limit`. -/
def limitProducer {α : Type} (size : Int) (src : Chan α) : List (ChanOp α) :=
  producer (limitBody size) 0 (fun _ => [ChanOp.close]) src

/-- Go `func (s *Stream) Limit(size int) *Stream`, the call: `size == 0` returns `Of()`,
`size < 0` panics, and any other `size` starts the goroutine. -/
def Stream.LimitCall {α : Type} (s : Stream α) (size : Int) : Call α (Chan α) :=
  if size = 0 then Call.returns (Of [])
  else if size < 0 then Call.panics "size must be greater than -1"
  else Call.go (limitProducer size) s.source

/-- Go `func (s *Stream) Limit(size int) *Stream`: the channel of the returned stream, which for
`size == 0` is that of `Of()`. -/
def Stream.Limit {α : Type} (s : Stream α) (size : Int) : Outcome (Chan α) :=
  (s.LimitCall size).outcome

/-! ## Terminal operations -/

/-- Go `func (s *Stream) Count() (count int)`: `count++` for every value; the call returns when
the source is closed. -/
def Stream.Count {α : Type} (s : Stream α) : Outcome Int :=
  if s.source.closed then
    Outcome.ret (s.source.items.foldl (fun count _ => wrap64 (count + 1)) 0)
  else Outcome.block

/-- Go `func (s *Stream) Foreach(f func(item interface{}))`: `f` is called on every value, in
order; what `f` does is a change of a state `σ`.  The call returns when the source is
closed. -/
def Stream.Foreach {α σ : Type} (s : Stream α) (f : α → σ → σ) (st : σ) : Outcome σ :=
  if s.source.closed then Outcome.ret (s.source.items.foldl (fun st item => f item st) st)
  else Outcome.block

/-! ## Options -/

/-- The constant `DefaultAntsPoolSize`. -/
def DefaultAntsPoolSize : Int := 10000

/-- Go `type Options struct { workSize int }`. -/
structure Options where
  workSize : Int
deriving DecidableEq, Repr

/-- Go `type Option func(options *Options)` of the source, as the change it makes to the
`Options` it is given. -/
abbrev OptionFunc := Options → Options

/-- Go `loadOptions`: the options are applied in order to a zero `Options`; a `workSize <= 0`
is replaced by the default. -/
def loadOptions (options : List OptionFunc) : Options :=
  let op := options.foldl (fun op option => option op) { workSize := 0 }
  if op.workSize ≤ 0 then { op with workSize := DefaultAntsPoolSize } else op

/-- Go `WithOption`: the closure assigns its own parameter `ops`, a local variable, so the
`Options` it is given stay as they are. -/
def WithOption (_options : Options) : OptionFunc :=
  fun ops => ops

/-- Go `WithPoolSize`: the closure sets `workSize`. -/
def WithPoolSize (size : Int) : OptionFunc :=
  fun options => { options with workSize := size }

/-! ## Walk -/

/-- Where the driver goroutine of `Walk` stands. -/
inductive DriverPc (α : Type) where
  /-- Before `pool <- struct{}{}`. -/
  | acquire
  /-- Before `item, ok := <-s.source`. -/
  | recv
  /-- Before `<-pool` and `break`, the source being closed and empty. -/
  | release
  /-- Before `wg.Add(1)`, holding `item`. -/
  | add (item : α)
  /-- Before `NewGoroutine(...)`, holding `item`. -/
  | spawn (item : α)
  /-- Before `wg.Wait()` returns. -/
  | wait
  /-- Before `close(pipe)`. -/
  | close
  /-- After `close(pipe)`. -/
  | exit
deriving DecidableEq, Repr

/-- Where a worker goroutine of `Walk` stands. -/
inductive WorkerPc where
  /-- Inside `f(item, pipe)`. -/
  | run
  /-- In the deferred function, before `wg.Done()`. -/
  | done
  /-- In the deferred function, before `<-pool`. -/
  | release
  /-- The goroutine has ended. -/
  | exit
deriving DecidableEq, Repr

/-- A worker goroutine: `pending` are the values its call of `f` has still to send to
`pipe`. -/
structure Worker (β : Type) where
  pc : WorkerPc
  pending : List β
deriving DecidableEq, Repr

/-- State of an execution of `Walk`.  The callback `f(item, pipe)` is given by the values
it sends to `pipe`, in order, before it returns or fails. -/
structure WalkState (α β : Type) where
  /-- The callback. -/
  f : α → List β
  /-- Value of `option.workSize`: capacity of `pipe` and of `pool`. -/
  workSize : Nat
  /-- Values the source has still to deliver. -/
  src : List α
  /-- Whether the source is closed behind them. -/
  srcClosed : Bool
  driver : DriverPc α
  /-- Number of slots taken, `len(pool)`. -/
  pool : Nat
  /-- Counter of the `sync.WaitGroup`. -/
  wg : Int
  /-- Workers in the order they were spawned. -/
  workers : List (Worker β)
  /-- Buffer of `pipe`. -/
  pipe : List β
  pipeClosed : Bool
  /-- Values the reader of the returned stream has received. -/
  out : List β

/-- The goroutine that takes the next step. -/
inductive WalkAction where
  | driver
  | worker (i : Nat)
  | reader
deriving DecidableEq, Repr

/-- Modelled from the spec: `NewGoroutine` is called by `Walk` but its file is not part of
the sources.  Spec §4.1: it starts `task` on a goroutine of its own and returns at once; a
failure of `task` is caught at the top of that goroutine, which then just ends.  Here the
new goroutine joins the goroutines already there. -/
def NewGoroutine {γ : Type} (goroutines : List γ) (task : γ) : List γ :=
  goroutines ++ [task]

/-- One step of the driver goroutine; `none` when it is blocked or has ended. -/
def driverStep {α β : Type} (st : WalkState α β) : Option (WalkState α β) :=
  match st.driver with
  | DriverPc.acquire =>
    if st.pool < st.workSize then some { st with pool := st.pool + 1, driver := DriverPc.recv }
    else none
  | DriverPc.recv =>
    match st.src with
    | item :: rest => some { st with src := rest, driver := DriverPc.add item }
    | [] => if st.srcClosed then some { st with driver := DriverPc.release } else none
  | DriverPc.release =>
    if 0 < st.pool then some { st with pool := st.pool - 1, driver := DriverPc.wait }
    else none
  | DriverPc.add item => some { st with wg := st.wg + 1, driver := DriverPc.spawn item }
  | DriverPc.spawn item =>
    some { st with
      workers := NewGoroutine st.workers { pc := WorkerPc.run, pending := st.f item }
      driver := DriverPc.acquire }
  | DriverPc.wait => if st.wg = 0 then some { st with driver := DriverPc.close } else none
  | DriverPc.close => some { st with pipeClosed := true, driver := DriverPc.exit }
  | DriverPc.exit => none

/-- One step of worker `w`, the `i`-th worker; `none` when it is blocked or has ended.  A
send on a closed `pipe` panics: the call of `f` is over, the deferred function runs, and
the panic stops at `NewGoroutine`. -/
def workerStep {α β : Type} (st : WalkState α β) (i : Nat) (w : Worker β) :
    Option (WalkState α β) :=
  match w.pc with
  | WorkerPc.run =>
    match w.pending with
    | item :: rest =>
      if st.pipeClosed then
        some { st with workers := st.workers.set i { pc := WorkerPc.done, pending := [] } }
      else if st.pipe.length < st.workSize then
        some { st with
          pipe := st.pipe ++ [item]
          workers := st.workers.set i { pc := WorkerPc.run, pending := rest } }
      else none
    | [] => some { st with workers := st.workers.set i { pc := WorkerPc.done, pending := [] } }
  | WorkerPc.done =>
    some { st with
      wg := st.wg - 1
      workers := st.workers.set i { pc := WorkerPc.release, pending := w.pending } }
  | WorkerPc.release =>
    if 0 < st.pool then
      some { st with
        pool := st.pool - 1
        workers := st.workers.set i { pc := WorkerPc.exit, pending := w.pending } }
    else none
  | WorkerPc.exit => none

/-- One step of the reader of the returned stream: it receives the oldest buffered value. -/
def readerStep {α β : Type} (st : WalkState α β) : Option (WalkState α β) :=
  match st.pipe with
  | item :: rest => some { st with pipe := rest, out := st.out ++ [item] }
  | [] => none

/-- One step of an execution of `Walk`; `none` when the chosen goroutine cannot move. -/
def walkStep {α β : Type} (st : WalkState α β) : WalkAction → Option (WalkState α β)
  | WalkAction.driver => driverStep st
  | WalkAction.worker i =>
    match st.workers[i]? with
    | some w => workerStep st i w
    | none => none
  | WalkAction.reader => readerStep st

/-- The state after the goroutines took their steps in the order `sched`; `none` when one
of them could not move at its turn. -/
def walkRun {α β : Type} (st : WalkState α β) : List WalkAction → Option (WalkState α β)
  | [] => some st
  | a :: sched =>
    match walkStep st a with
    | some st' => walkRun st' sched
    | none => none

/-- The state in which a call of `Walk` returns: `pipe` is made and empty, the driver
goroutine is started and has yet to take its first step. -/
def walkStart {α β : Type} (s : Stream α) (f : α → List β) (opts : List OptionFunc) :
    WalkState α β :=
  { f := f
    workSize := (loadOptions opts).workSize.toNat
    src := s.source.items
    srcClosed := s.source.closed
    driver := DriverPc.acquire
    pool := 0
    wg := 0
    workers := []
    pipe := []
    pipeClosed := false
    out := [] }

/-- Go `func (s *Stream) Walk(f, opts...) *Stream`: `option := loadOptions(opts...)`, then
`pipe := make(chan interface{}, option.workSize)`, which panics for a `workSize` beyond the
limit of `make`, then the driver goroutine is started and the call returns.  The `make` of
`pool` in the goroutine is for values of type `struct{}`, of size 0, and does not panic. -/
def Stream.Walk {α β : Type} (s : Stream α) (f : α → List β) (opts : List OptionFunc) :
    Outcome (WalkState α β) :=
  if makechanOutOfRange (loadOptions opts).workSize then
    Outcome.panic "makechan: size out of range"
  else Outcome.ret (walkStart s f opts)

/-- Go `func (s *Stream) Map(fn MapFunc, opts ...Option) *Stream`: the callback sends `fn(item)`. -/
def Stream.Map {α β : Type} (s : Stream α) (fn : α → β) (opts : List OptionFunc) :
    Outcome (WalkState α β) :=
  s.Walk (fun item => [fn item]) opts

/-- Go `func (s *Stream) Filter(fn FilterFunc, opts ...Option) *Stream`: the callback sends
`item` if `fn(item)`. -/
def Stream.Filter {α : Type} (s : Stream α) (fn : α → Bool) (opts : List OptionFunc) :
    Outcome (WalkState α α) :=
  s.Walk (fun item => if fn item then [item] else []) opts

/-- The reader has received everything: `pipe` is closed and empty. -/
def WalkState.finished {α β : Type} (st : WalkState α β) : Prop :=
  st.pipeClosed = true ∧ st.pipe = []

/-- Number of calls of `f` that have started and not yet returned. -/
def WalkState.running {α β : Type} (st : WalkState α β) : Nat :=
  st.workers.countP (fun w => w.pc = WorkerPc.run)

/-- Whether a worker holds a slot of `pool`: 1 until it has done `<-pool`. -/
def Worker.live {β : Type} (w : Worker β) : Nat :=
  if w.pc = WorkerPc.exit then 0 else 1

/-- Whether a worker is counted in the `WaitGroup`: 1 until it has done `wg.Done()`. -/
def Worker.active {β : Type} (w : Worker β) : Int :=
  if w.pc = WorkerPc.run ∨ w.pc = WorkerPc.done then 1 else 0

/-- Whether the driver holds a slot of `pool`, taken for the worker it is about to spawn. -/
def DriverPc.holds {α : Type} : DriverPc α → Nat
  | DriverPc.recv => 1
  | DriverPc.release => 1
  | DriverPc.add _ => 1
  | DriverPc.spawn _ => 1
  | _ => 0

/-- Whether the driver has done `wg.Add(1)` for a worker it has not spawned yet. -/
def DriverPc.added {α : Type} : DriverPc α → Int
  | DriverPc.spawn _ => 1
  | _ => 0

/-- The item the driver has received and not yet handed to a worker. -/
def DriverPc.held {α : Type} : DriverPc α → List α
  | DriverPc.add item => [item]
  | DriverPc.spawn item => [item]
  | _ => []

/-- Whether the driver has left its loop. -/
def DriverPc.pastLoop {α : Type} : DriverPc α → Prop
  | DriverPc.release => True
  | DriverPc.wait => True
  | DriverPc.close => True
  | DriverPc.exit => True
  | _ => False

/-- Whether the driver is past `wg.Wait()`. -/
def DriverPc.pastWait {α : Type} : DriverPc α → Prop
  | DriverPc.close => True
  | DriverPc.exit => True
  | _ => False

/-- What holds in every state of an execution of `Walk` that starts in `st0`. -/
structure WalkInv {α β : Type} (st0 st : WalkState α β) : Prop where
  f_eq : st.f = st0.f
  size_eq : st.workSize = st0.workSize
  src_eq : st.srcClosed = st0.srcClosed
  pool_eq : st.pool = (st.workers.map Worker.live).sum + st.driver.holds
  pool_le : st.pool ≤ st.workSize
  wg_eq : st.wg = (st.workers.map Worker.active).sum + st.driver.added
  drained : st.driver.pastLoop → st.src = []
  quiet : st.driver.pastWait → (st.workers.map Worker.active).sum = 0
  closed_iff : st.pipeClosed = true ↔ st.driver = DriverPc.exit
  idle : ∀ w ∈ st.workers, w.pc ≠ WorkerPc.run → w.pending = []
  taken : st.workers.length + st.driver.held.length + st.src.length = st0.src.length
  items : (st.out ++ st.pipe ++ st.workers.flatMap Worker.pending ++
    (st.driver.held ++ st.src).flatMap st0.f).Perm (st0.src.flatMap st0.f)
  ordered : st0.workSize = 1 →
    st.out ++ st.pipe ++ st.workers.flatMap Worker.pending ++
      (st.driver.held ++ st.src).flatMap st0.f = st0.src.flatMap st0.f

/-- Steps still to be taken by a worker, and by the reader for what the worker sends. -/
def Worker.rank {β : Type} (w : Worker β) : Nat :=
  match w.pc with
  | WorkerPc.run => 2 * w.pending.length + 3
  | WorkerPc.done => 2
  | WorkerPc.release => 1
  | WorkerPc.exit => 0

/-- Steps of a worker spawned for `item`, and of the driver to spawn it. -/
def itemRank {α β : Type} (f : α → List β) (item : α) : Nat :=
  2 * (f item).length + 7

/-- Steps still to be taken by the driver, the items of the source left aside. -/
def DriverPc.rank {α β : Type} (f : α → List β) : DriverPc α → Nat
  | DriverPc.acquire => 5
  | DriverPc.recv => 4
  | DriverPc.release => 3
  | DriverPc.add item => 2 * (f item).length + 10
  | DriverPc.spawn item => 2 * (f item).length + 9
  | DriverPc.wait => 2
  | DriverPc.close => 1
  | DriverPc.exit => 0

/-- A bound on the number of steps an execution can still take. -/
def WalkState.rank {α β : Type} (st : WalkState α β) : Nat :=
  st.driver.rank st.f + (st.src.map (itemRank st.f)).sum + (st.workers.map Worker.rank).sum +
    st.pipe.length

/-! ## Empty -/

/-- The variable `var empty = &Stream{source: make(chan interface{})}`: one struct and one
channel for the whole process, here at address 0.  The channel has no buffer, nothing is ever
sent on it, and it is never closed: `source` is a receive-only field, on which `close` does
not compile. -/
def empty {α : Type} : Stream α :=
  { ptr := 0, chan := 0, source := { cap := 0, items := [], closed := false } }

/-- Go `func Empty() *Stream`. -/
def Empty {α : Type} : Stream α :=
  empty

/-! ## Concat -/

/-- The channels the drainers of `Concat` read, by address, each with what it has still to
deliver. -/
abbrev Chans (α : Type) := List (Nat × Chan α)

/-- The channel at address `a`. -/
def chanAt {α : Type} : Chans α → Nat → Option (Chan α)
  | [], _ => none
  | (b, c) :: rest, a => if b = a then some c else chanAt rest a

/-- The channel at address `a` replaced by `c'`. -/
def setChan {α : Type} : Chans α → Nat → Chan α → Chans α
  | [], _, _ => []
  | (b, c) :: rest, a, c' => if b = a then (b, c') :: rest else (b, c) :: setChan rest a c'

/-- The channels of a list of streams: a channel held by several streams is there once. -/
def mkChans {α : Type} : List (Stream α) → Chans α
  | [] => []
  | t :: rest => (t.chan, t.source) :: (mkChans rest).filter (fun e => e.1 ≠ t.chan)

/-- Where a drainer goroutine of `Concat` stands. -/
inductive DrainerPc (α : Type) where
  /-- At the head of `for item := range iother.source`. -/
  | recv
  /-- Before `source <- item`. -/
  | send (item : α)
  /-- Before `wg.Done()`. -/
  | done
  /-- The goroutine has ended. -/
  | exit
deriving DecidableEq, Repr

/-- A drainer goroutine and the address of the channel it ranges over. -/
structure Drainer (α : Type) where
  chan : Nat
  pc : DrainerPc α
deriving DecidableEq, Repr

/-- Where the goroutine `wg.Wait(); close(source)` stands. -/
inductive CloserPc where
  | wait
  | close
  | exit
deriving DecidableEq, Repr

/-- State of an execution of `Concat` after the call has returned. -/
structure ConcatState (α : Type) where
  chans : Chans α
  /-- One drainer for each of `others`, in order, then the one of the receiver. -/
  drainers : List (Drainer α)
  /-- Counter of the `sync.WaitGroup`. -/
  wg : Int
  closer : CloserPc
  /-- Whether `source`, the channel of the returned stream, is closed. -/
  closed : Bool
  /-- Whether a drainer has sent on the closed `source`, which panics. -/
  panicked : Bool
  /-- Values the reader of the returned stream has received. -/
  out : List α
deriving DecidableEq, Repr

/-- The goroutine that takes the next step. -/
inductive ConcatAction where
  | drainer (i : Nat)
  | closer
deriving DecidableEq, Repr

/-- One step of drainer `d`, the `i`-th drainer; `none` when it is blocked or has ended.
`source` has no buffer: a send is a hand-over to the reader, who ranges over `source`. -/
def drainerStep {α : Type} (st : ConcatState α) (i : Nat) (d : Drainer α) :
    Option (ConcatState α) :=
  match d.pc with
  | DrainerPc.recv =>
    match chanAt st.chans d.chan with
    | some c =>
      match c.items with
      | item :: rest =>
        some { st with
          chans := setChan st.chans d.chan { c with items := rest }
          drainers := st.drainers.set i { d with pc := DrainerPc.send item } }
      | [] =>
        if c.closed then
          some { st with drainers := st.drainers.set i { d with pc := DrainerPc.done } }
        else none
    | none => none
  | DrainerPc.send item =>
    if st.closed then
      some { st with
        panicked := true
        drainers := st.drainers.set i { d with pc := DrainerPc.exit } }
    else
      some { st with
        out := st.out ++ [item]
        drainers := st.drainers.set i { d with pc := DrainerPc.recv } }
  | DrainerPc.done =>
    some { st with wg := st.wg - 1, drainers := st.drainers.set i { d with pc := DrainerPc.exit } }
  | DrainerPc.exit => none

/-- One step of the goroutine `wg.Wait(); close(source)`. -/
def closerStep {α : Type} (st : ConcatState α) : Option (ConcatState α) :=
  match st.closer with
  | CloserPc.wait => if st.wg = 0 then some { st with closer := CloserPc.close } else none
  | CloserPc.close => some { st with closed := true, closer := CloserPc.exit }
  | CloserPc.exit => none

/-- One step of an execution of `Concat`; `none` when the chosen goroutine cannot move. -/
def concatStep {α : Type} (st : ConcatState α) : ConcatAction → Option (ConcatState α)
  | ConcatAction.drainer i =>
    match st.drainers[i]? with
    | some d => drainerStep st i d
    | none => none
  | ConcatAction.closer => closerStep st

/-- The state after the goroutines took their steps in the order `sched`. -/
def concatRun {α : Type} (st : ConcatState α) : List ConcatAction → Option (ConcatState α)
  | [] => some st
  | a :: sched =>
    match concatStep st a with
    | some st' => concatRun st' sched
    | none => none

/-- Go `func (s *Stream) Concat(others ...*Stream) *Stream`: the call panics at the first of
`others` that is the receiver; otherwise it has started one drainer for each of `others` and
one for the receiver, each counted in the `WaitGroup`, and the closing goroutine. -/
def Stream.Concat {α : Type} (s : Stream α) (others : List (Stream α)) :
    Outcome (ConcatState α) :=
  if others.any (fun other => s.ptr = other.ptr) then Outcome.panic "other same"
  else
    Outcome.ret
      { chans := mkChans (others ++ [s])
        drainers := (others ++ [s]).map (fun t => { chan := t.chan, pc := DrainerPc.recv })
        wg := others.length + 1
        closer := CloserPc.wait
        closed := false
        panicked := false
        out := [] }

/-- Go `func Concat(a *Stream, others ...*Stream) *Stream`. -/
def Concat {α : Type} (a : Stream α) (others : List (Stream α)) : Outcome (ConcatState α) :=
  a.Concat others

/-- Whether a drainer is counted in the `WaitGroup`: 1 until it has done `wg.Done()`. -/
def Drainer.active {α : Type} (d : Drainer α) : Int :=
  match d.pc with
  | DrainerPc.exit => 0
  | _ => 1

/-- The value a drainer has received and not yet sent. -/
def Drainer.held {α : Type} (d : Drainer α) : List α :=
  match d.pc with
  | DrainerPc.send item => [item]
  | _ => []

/-- Whether a drainer has left its loop: it found its channel closed and empty. -/
def Drainer.pastLoop {α : Type} (d : Drainer α) : Prop :=
  d.pc = DrainerPc.done ∨ d.pc = DrainerPc.exit

/-- The values the channels have still to deliver, channel after channel. -/
def chanItems {α : Type} (chans : Chans α) : List α :=
  chans.flatMap (fun e => e.2.items)

/-- What holds in every state of an execution of `Concat` that starts in `st0`. -/
structure ConcatInv {α : Type} (st0 st : ConcatState α) : Prop where
  nodup : (st.chans.map Prod.fst).Nodup
  known : ∀ a ∈ st.drainers.map Drainer.chan, a ∈ st.chans.map Prod.fst
  covered : ∀ a ∈ st.chans.map Prod.fst, a ∈ st.drainers.map Drainer.chan
  still_closed : (∀ e ∈ st0.chans, e.2.closed = true) → ∀ e ∈ st.chans, e.2.closed = true
  wg_eq : st.wg = (st.drainers.map Drainer.active).sum
  quiet : st.closer ≠ CloserPc.wait → (st.drainers.map Drainer.active).sum = 0
  closed_iff : st.closed = true ↔ st.closer = CloserPc.exit
  sound : st.panicked = false
  drained : ∀ d ∈ st.drainers, d.pastLoop → ∀ e ∈ st.chans, e.1 = d.chan →
    e.2.items = [] ∧ e.2.closed = true
  items : (st.out ++ st.drainers.flatMap Drainer.held ++ chanItems st.chans).Perm
    (chanItems st0.chans)

/-- Steps still to be taken by a drainer, the values of its channel left aside. -/
def Drainer.rank {α : Type} (d : Drainer α) : Nat :=
  match d.pc with
  | DrainerPc.recv => 2
  | DrainerPc.send _ => 3
  | DrainerPc.done => 1
  | DrainerPc.exit => 0

/-- Steps still to be taken by the closing goroutine. -/
def CloserPc.rank : CloserPc → Nat
  | CloserPc.wait => 2
  | CloserPc.close => 1
  | CloserPc.exit => 0

/-- A bound on the number of steps an execution of `Concat` can still take. -/
def ConcatState.rank {α : Type} (st : ConcatState α) : Nat :=
  2 * (chanItems st.chans).length + (st.drainers.map Drainer.rank).sum + st.closer.rank

/-! ## Options given by their constructors -/

/-- A call of one of the two functions of `option.go` that return an `Option`. -/
inductive OptionCall where
  | WithOption (options : Options)
  | WithPoolSize (size : Int)
deriving DecidableEq, Repr

/-- The `Option` the call returns. -/
def OptionCall.option : OptionCall → OptionFunc
  | OptionCall.WithOption options => GoStream.WithOption options
  | OptionCall.WithPoolSize size => GoStream.WithPoolSize size

/-- The size given to the last `WithPoolSize` of a list of calls, if there is one. -/
def lastPoolSize : List OptionCall → Option Int
  | [] => none
  | OptionCall.WithPoolSize size :: rest =>
    match lastPoolSize rest with
    | some later => some later
    | none => some size
  | OptionCall.WithOption _ :: rest => lastPoolSize rest

/-! ## AnyMach, AllMach, findFirst -/

/-- Go `func (s *Stream) AnyMach(f func(item interface{}) bool, opts ...Option) (isFind bool)`:
the loop goes over every value and sets `isFind` where `f` holds; the call returns when the
source is closed. -/
def Stream.AnyMach {α : Type} (s : Stream α) (f : α → Bool) : Outcome Bool :=
  if s.source.closed then
    Outcome.ret (s.source.items.foldl (fun isFind item => if f item then true else isFind) false)
  else Outcome.block

/-- The loop of `AllMach` over the values still to come: it returns `false` at the first
value where `f` fails; past the last value it returns `true` if the source is closed and
waits forever if it is not. -/
def allMachLoop {α : Type} (f : α → Bool) (closed : Bool) : List α → Outcome Bool
  | [] => if closed then Outcome.ret true else Outcome.block
  | item :: rest => if !f item then Outcome.ret false else allMachLoop f closed rest

/-- Go `func (s *Stream) AllMach(f func(item interface{}) bool, opts ...Option) (isFind bool)`. -/
def Stream.AllMach {α : Type} (s : Stream α) (f : α → Bool) : Outcome Bool :=
  allMachLoop f s.source.closed s.source.items

/-- Go `func (s *Stream) findFirst() (result interface{}, err error)`.  An item is an
`interface{}`: `none` is `nil`.  The loop assigns every value to `result` and goes on; after
it `err` is set when `result == nil`.  The call returns when the source is closed. -/
def Stream.findFirst {α : Type} (s : Stream (Option α)) : Outcome (Option α × Option String) :=
  if s.source.closed then
    let result := s.source.items.foldl (fun _ item => item) none
    Outcome.ret (result, if result.isNone then some "no element" else none)
  else Outcome.block

/-! ## Distinct, Split, SplitSteam -/

/-- Body of the loop of `Distinct`: `k := f(item)`; when `k` is not in the map `unique`, here
the list of its keys, the item is sent and `k` is added. -/
def distinctBody {α κ : Type} [DecidableEq κ] (f : α → κ) (unique : List κ) (item : α) :
    List κ × List (ChanOp α) :=
  let k := f item
  if k ∈ unique then (unique, []) else (k :: unique, [ChanOp.send item])

/-- The goroutine of `Distinct`; `defer close(source)` closes the channel when it ends. -/
def distinctProducer {α κ : Type} [DecidableEq κ] (f : α → κ) (src : Chan α) :
    List (ChanOp α) :=
  producer (distinctBody f) [] (fun _ => [ChanOp.close]) src

/-- Go `func (s *Stream) Distinct(f KeyFunc) *Stream`: the channel of the returned stream.
The keys are values of a type with a decidable equality, as the keys of a Go map are
compared with `==`. -/
def Stream.Distinct {α κ : Type} [DecidableEq κ] (s : Stream α) (f : α → κ) :
    Outcome (Chan α) :=
  Outcome.ret (Chan.ofTrace 0 (distinctProducer f s.source))

/-- The items of `xs` whose key differs from the key of every item of `before` and of every
earlier item of `xs`, in the order of `xs`: the item at index `i` is kept when no item of
`before` and no item of `xs` before index `i` has its key. -/
def firstOfKeyAfter {α κ : Type} [DecidableEq κ] (f : α → κ) (before xs : List α) : List α :=
  (List.range xs.length).filterMap (fun i =>
    match xs[i]? with
    | some x =>
      if (before ++ xs.take i).all (fun y => decide (f y ≠ f x)) then some x else none
    | none => none)

/-- The items of `xs` whose key differs from the key of every earlier item of `xs`, in the
order of `xs`. -/
def firstOfKey {α κ : Type} [DecidableEq κ] (f : α → κ) (xs : List α) : List α :=
  firstOfKeyAfter f [] xs

/-- Body of the loop of `Split`: the item is appended to `chunk`; a chunk of `n` items is
sent and `chunk` is `nil`, here `[]`, again. -/
def splitBody {α : Type} (n : Int) (chunk : List α) (item : α) :
    List α × List (ChanOp (List α)) :=
  let chunk := chunk ++ [item]
  if (chunk.length : Int) = n then ([], [ChanOp.send chunk]) else (chunk, [])

/-- The code of `Split` after the loop: a `chunk` that is not `nil` is sent, then the channel
is closed. -/
def splitAfter {α : Type} (chunk : List α) : List (ChanOp (List α)) :=
  (if chunk.isEmpty then [] else [ChanOp.send chunk]) ++ [ChanOp.close]

/-- The goroutine of `Split`. -/
def splitProducer {α : Type} (n : Int) (src : Chan α) : List (ChanOp (List α)) :=
  producer (splitBody n) [] splitAfter src

/-- Go `func (s *Stream) Split(n int) *Stream`, the call: the test of `n`, then the
goroutine. -/
def Stream.SplitCall {α : Type} (s : Stream α) (n : Int) : Call α (Chan (List α)) :=
  if n < 1 then Call.panics "n should be greater than 0"
  else Call.go (splitProducer n) s.source

/-- Go `func (s *Stream) Split(n int) *Stream`: the channel of the returned stream, whose
values are the chunks. -/
def Stream.Split {α : Type} (s : Stream α) (n : Int) : Outcome (Chan (List α)) :=
  (s.SplitCall n).outcome

/-- Body of the loop of `SplitSteam`: the item is sent to `chunkSource`, a channel with a
buffer of `n`, here the list of the values in the buffer; when `len(chunkSource) == n` a
stream over `chunkSource` is sent, `chunkSource` is closed, and a new channel takes its
place.  A sub-stream is given by its channel as its reader sees it: the values of the chunk,
then closed. -/
def splitSteamBody {α : Type} (n : Int) (chunkSource : List α) (item : α) :
    List α × List (ChanOp (Chan α)) :=
  let chunkSource := chunkSource ++ [item]
  if (chunkSource.length : Int) = n then
    ([], [ChanOp.send { cap := n.toNat, items := chunkSource, closed := true }])
  else (chunkSource, [])

/-- The code of `SplitSteam` after the loop: a `chunkSource` that is not empty is sent as a
stream and closed, then the channel of the sub-streams is closed. -/
def splitSteamAfter {α : Type} (n : Int) (chunkSource : List α) : List (ChanOp (Chan α)) :=
  (if chunkSource.length ≠ 0 then
    [ChanOp.send { cap := n.toNat, items := chunkSource, closed := true }]
  else []) ++ [ChanOp.close]

/-- The goroutine of `SplitSteam`. -/
def splitSteamProducer {α : Type} (n : Int) (src : Chan α) : List (ChanOp (Chan α)) :=
  producer (splitSteamBody n) [] (splitSteamAfter n) src

/-- Go `func (s *Stream) SplitSteam(n int) *Stream`, the call: the test of `n`, then
`var chunkSource = make(chan interface{}, n)`, which panics for an `n` beyond the limit of
`make`, then the goroutine.  The `make` in the loop of the goroutine has the same `n`. -/
def Stream.SplitSteamCall {α : Type} (s : Stream α) (n : Int) : Call α (Chan (Chan α)) :=
  if n < 1 then Call.panics "n should be greater than 0"
  else if makechanOutOfRange n then Call.panics "makechan: size out of range"
  else Call.go (splitSteamProducer n) s.source

/-- Go `func (s *Stream) SplitSteam(n int) *Stream`: the channel of the returned stream, whose
values are the sub-streams. -/
def Stream.SplitSteam {α : Type} (s : Stream α) (n : Int) : Outcome (Chan (Chan α)) :=
  (s.SplitSteamCall n).outcome

/-- The operation on a channel of `β` that an operation on a channel of `α` becomes when
every value sent is changed by `g`. -/
def ChanOp.map {α β : Type} (g : α → β) : ChanOp α → ChanOp β
  | ChanOp.send item => ChanOp.send (g item)
  | ChanOp.close => ChanOp.close

/-- The sub-stream `SplitSteam(n)` sends for a chunk: a channel with a buffer of `n` that
holds the chunk and is closed. -/
def subStream {α : Type} (n : Int) (chunk : List α) : Chan α :=
  { cap := n.toNat, items := chunk, closed := true }

/-! ## Reverse, Sort -/

/-- The assignment `items[i], items[opp] = items[opp], items[i]`.  An index out of range,
which panics in Go, is not met by the loop of `Reverse` and leaves the slice as it is. -/
def swap {α : Type} (items : List α) (i opp : Nat) : List α :=
  match items[i]?, items[opp]? with
  | some a, some b => (items.set i b).set opp a
  | _, _ => items

/-- The loop `for i := ...; i >= 0; i-- { opp := len(items) - 1 - i; swap }` of `Reverse`
with `k` rounds to go: the rounds are those of `i = k - 1, ..., 0`. -/
def reverseLoop {α : Type} (items : List α) : Nat → List α
  | 0 => items
  | i + 1 => reverseLoop (swap items i (items.length - 1 - i)) i

/-- Go `func (s *Stream) Reverse() *Stream`: the call itself takes every value of the
source, so it returns when the source is closed; the loop starts at `len(items)/2 - 1`; the
channel of the returned stream is that of `Of(items...)`. -/
def Stream.Reverse {α : Type} (s : Stream α) : Outcome (Chan α) :=
  if s.source.closed then
    Outcome.ret (Of (reverseLoop s.source.items (s.source.items.length / 2)))
  else Outcome.block

/-- The requirement `sort.Slice` puts on `less`: a transitive ordering in which nothing is
less than itself and in which being unordered is transitive too, that is, a strict weak
ordering. -/
structure StrictWeakOrder {α : Type} (less : α → α → Bool) : Prop where
  irrefl : ∀ a, less a a = false
  trans : ∀ a b c, less a b = true → less b c = true → less a c = true
  incomp_trans : ∀ a b c, less a b = false → less b c = false → less a c = false

/-- The contract of `sort.Slice(items, func(i, j int) bool { return less(items[i], items[j]) })`,
a function of the Go standard library and not of this repository: for a `less` that meets the
requirement, the slice afterwards holds the same items, none of them less than an item
before it.  The order of items that are not ordered by `less` is not specified. -/
def SortsSlices {α : Type} (sortSlice : (α → α → Bool) → List α → List α) : Prop :=
  ∀ less, StrictWeakOrder less → ∀ items,
    (sortSlice less items).Perm items ∧
      (sortSlice less items).Pairwise (fun a b => less b a = false)

/-- Go `func (s *Stream) Sort(less LessFunc) *Stream`, with `sort.Slice` as the parameter
`sortSlice`: the call itself takes every value of the source, so it returns when the source
is closed; the channel of the returned stream is that of `Of(items...)`. -/
def Stream.Sort {α : Type} (sortSlice : (α → α → Bool) → List α → List α) (s : Stream α)
    (less : α → α → Bool) : Outcome (Chan α) :=
  if s.source.closed then Outcome.ret (Of (sortSlice less s.source.items))
  else Outcome.block


/-! # Theorems -/

/-! ## Ring and Tail -/

theorem filterMap_range_getElem? {α : Type} (l : List α) (c : Nat) :
    (List.range c).filterMap (fun k => l[k]?) = l.take c := by
  induction c with
  | zero => simp
  | succ c ih =>
    rw [List.range_succ, List.filterMap_append, ih, List.take_succ]
    cases h : l[c]? <;> simp [h]

theorem ringInv_new {α : Type} (N : Nat) :
    RingInv N ([] : List α)
      { elements := List.replicate N none, index := 0, count := 0 } := by
  constructor <;> simp

theorem ringInv_add {α : Type} (N : Nat) (hN : 0 < N) (xs : List α) (r : Ring α)
    (h : RingInv N xs r) (x : α) : RingInv N (xs ++ [x]) (r.Add x) := by
  obtain ⟨hl, hi, hc, hs⟩ := h
  constructor
  · simp [Ring.Add, hl]
  · simp [Ring.Add, hl, hi]
  · simp only [Ring.Add, hl, hc, List.length_append, List.length_singleton]
    omega
  · intro i hi1 hi2
    simp only [List.length_append, List.length_singleton] at hi1 hi2
    simp only [Ring.Add, hi]
    by_cases hlast : i = xs.length
    · subst hlast
      rw [List.getElem?_set_self (by rw [hl]; exact Nat.mod_lt _ hN)]
      simp
    · have hlt : i < xs.length := by omega
      have hne : xs.length % N ≠ i % N := by
        intro heq
        have h1 : (xs.length - i) % N = 0 :=
          Nat.sub_mod_eq_zero_of_mod_eq heq
        have h2 : N ∣ xs.length - i := Nat.dvd_of_mod_eq_zero h1
        have h3 : N ≤ xs.length - i := Nat.le_of_dvd (by omega) h2
        omega
      rw [List.getElem?_set_ne hne, hs i hlt (by omega)]
      simp [List.getElem?_append_left hlt]

theorem ringInv_foldl {α : Type} (N : Nat) (hN : 0 < N) (ys xs : List α) (r : Ring α)
    (h : RingInv N xs r) : RingInv N (xs ++ ys) (ys.foldl Ring.Add r) := by
  induction ys generalizing xs r with
  | nil => simpa using h
  | cons y ys ih =>
    have := ih (xs ++ [y]) (r.Add y) (ringInv_add N hN xs r h y)
    simpa using this

theorem ringInv_take {α : Type} (N : Nat) (xs : List α) (r : Ring α)
    (h : RingInv N xs r) : r.Take = xs.drop (xs.length - N) := by
  obtain ⟨hl, hi, hc, hs⟩ := h
  have key : ∀ k ∈ List.range r.count,
      r.elements.getD (((if r.count < r.elements.length then 0 else r.index) + k)
        % r.elements.length) none = (xs.drop (xs.length - N))[k]? := by
    intro k hk
    rw [List.mem_range, hc] at hk
    rw [hl, hc, hi, List.getElem?_drop, List.getD_eq_getElem?_getD]
    by_cases hfull : xs.length < N
    · have h1 : min xs.length N < N := by omega
      have h2 : xs.length - N = 0 := by omega
      have h3 := hs k (by omega) (by omega)
      simp only [h1, if_true, Nat.zero_add, h2]
      rw [h3]; simp
    · have h1 : ¬ min xs.length N < N := by omega
      have h3 := hs (xs.length - N + k) (by omega) (by omega)
      have h4 : (xs.length % N + k) % N = (xs.length - N + k) % N := by
        have : xs.length - N + k + N = xs.length + k := by omega
        rw [← Nat.add_mod_right (xs.length - N + k), this, Nat.add_mod, Nat.mod_mod,
          ← Nat.add_mod]
      simp only [h1, if_false, h4]
      rw [h3]; simp
  unfold Ring.Take
  rw [List.filterMap_congr key, filterMap_range_getElem?, hc, List.take_of_length_le]
  simp only [List.length_drop]
  omega

/-- C1: for every `n >= 1` and every source that delivers the finite sequence `xs` and is
then closed, a ring of capacity `n` fed all of `xs` returns the last `min(len(xs), n)` items
of `xs`, oldest first, and `Tail(n)` yields exactly these items, in their original order,
and then closes its channel. -/
theorem Tail_yields_last {α : Type} (s : Stream α) (n : Int) (hn : 1 ≤ n)
    (hclosed : s.source.closed = true) :
    (∀ ring : Ring α, NewRing n = Outcome.ret ring →
      (s.source.items.foldl Ring.Add ring).Take =
        s.source.items.drop (s.source.items.length - min s.source.items.length n.toNat)) ∧
    s.Tail n = Outcome.ret
      { cap := 0
        items := s.source.items.drop
          (s.source.items.length - min s.source.items.length n.toNat)
        closed := true } ∧
    (s.source.items.drop
      (s.source.items.length - min s.source.items.length n.toNat)).length =
        min s.source.items.length n.toNat := by
  have hN : 0 < n.toNat := by omega
  have hnot : ¬ n < 1 := by omega
  have hdrop : s.source.items.length - min s.source.items.length n.toNat =
      s.source.items.length - n.toNat := by omega
  have hring : ∀ ring : Ring α, NewRing n = Outcome.ret ring →
      (s.source.items.foldl Ring.Add ring).Take =
        s.source.items.drop (s.source.items.length - n.toNat) := by
    intro ring hr
    simp only [NewRing, hnot, if_false, Outcome.ret.injEq] at hr
    subst hr
    have h := ringInv_foldl n.toNat hN s.source.items [] _ (ringInv_new n.toNat)
    simpa using ringInv_take n.toNat _ _ h
  refine ⟨?_, ?_, ?_⟩
  · rw [hdrop]; exact hring
  · have h := hring { elements := List.replicate n.toNat none, index := 0, count := 0 }
      (by simp [NewRing, hnot])
    rw [hdrop]
    have hloop : ∀ (xs : List α) (r : Ring α),
        rangeLoop (fun (ring : Ring α) (item : α) => (ring.Add item, ([] : List (ChanOp α))))
          r xs = (xs.foldl Ring.Add r, []) := by
      intro xs
      induction xs with
      | nil => intro r; rfl
      | cons x xs ih => intro r; simp [rangeLoop, ih]
    simp only [Stream.Tail, Stream.TailCall, Call.go, hnot, if_false, tailProducer, NewRing,
      producer, hloop, hclosed,
      if_true, h, Chan.ofTrace, List.nil_append]
    congr 2
    · generalize s.source.items.drop (s.source.items.length - n.toNat) = l
      induction l with
      | nil => rfl
      | cons a l ih => simpa [sent] using ih
    · generalize s.source.items.drop (s.source.items.length - n.toNat) = l
      induction l with
      | nil => rfl
      | cons a l ih => simpa [closes] using ih
  · simp only [List.length_drop]; omega

theorem Tail_yields_last_witness :
    (1 : Int) ≤ 2 ∧ (Range (Of [1, 232, 3, 2, 3]) 0 0).source.closed = true ∧
    (Range (Of [1, 232, 3, 2, 3]) 0 0).Tail 2 =
      Outcome.ret { cap := 0, items := [2, 3], closed := true } :=
  ⟨by decide, rfl, (Tail_yields_last (Range (Of [1, 232, 3, 2, 3]) 0 0) 2 (by decide) rfl).2.1⟩

/-! ## Head, Skip, Limit, Count -/

theorem wrap64_eq (x : Int) (h1 : -2 ^ 63 ≤ x) (h2 : x < 2 ^ 63) : wrap64 x = x := by
  unfold wrap64
  norm_num at h1 h2 ⊢
  omega

theorem sent_append_send {α : Type} (x : α) (t : List (ChanOp α)) :
    sent ([ChanOp.send x] ++ t) = x :: sent t := rfl

theorem sent_map_send_close {α : Type} (l : List α) (t : List (ChanOp α)) :
    sent (l.map ChanOp.send ++ ChanOp.close :: t) = l := by
  induction l with
  | nil => rfl
  | cons a l ih => simpa [sent] using ih

theorem closes_map_send_close {α : Type} (l : List α) (t : List (ChanOp α)) :
    closes (l.map ChanOp.send ++ ChanOp.close :: t) = true := by
  induction l with
  | nil => rfl
  | cons a l ih => simpa [closes] using ih

theorem sent_map_send_append {α : Type} (l : List α) (t : List (ChanOp α)) :
    sent (l.map ChanOp.send ++ t) = l ++ sent t := by
  induction l with
  | nil => rfl
  | cons a l ih => simpa [sent] using ih

theorem closes_map_send_append {α : Type} (l : List α) (t : List (ChanOp α)) :
    closes (l.map ChanOp.send ++ t) = closes t := by
  induction l with
  | nil => rfl
  | cons a l ih => simpa [closes] using ih

theorem sent_map_send {α : Type} (l : List α) :
    sent (l.map ChanOp.send) = l := by
  induction l with
  | nil => rfl
  | cons a l ih => simpa [sent] using ih

theorem closes_map_send {α : Type} (l : List α) :
    closes (l.map ChanOp.send) = false := by
  induction l with
  | nil => rfl
  | cons a l ih => simpa [closes] using ih

/-- The loop of `Head` started with counter `n` over `xs`, while the counter cannot wrap:
the operations are the sends of the first `n` items, followed by `close` if the `n`-th item
is reached. -/
theorem headLoop_spec {α : Type} (xs : List α) (n : Int)
    (hlo : -2 ^ 63 + (xs.length : Int) ≤ n) (hhi : n < 2 ^ 63) :
    rangeLoop headBody n xs =
      (n - xs.length,
        (xs.take n.toNat).map ChanOp.send ++
          (if 1 ≤ n ∧ n ≤ xs.length then [ChanOp.close] else [])) := by
  induction xs generalizing n with
  | nil =>
    have : ¬ (1 ≤ n ∧ n ≤ 0) := by omega
    simp [rangeLoop, this]
  | cons x xs ih =>
    simp only [List.length_cons, Nat.cast_add, Nat.cast_one] at hlo
    have hw : wrap64 (n - 1) = n - 1 := wrap64_eq _ (by omega) (by omega)
    have h := ih (n - 1) (by omega) (by omega)
    simp only [rangeLoop, headBody, hw, h, List.length_cons, Nat.cast_add, Nat.cast_one]
    refine Prod.ext (by simp only []; omega) ?_
    simp only []
    rcases lt_trichotomy (n - 1) 0 with hneg | hzero | hpos
    · have e1 : ¬ (n - 1 ≥ 0) := by omega
      have e2 : ¬ (n - 1 = 0) := by omega
      have e3 : ¬ (1 ≤ n - 1 ∧ n - 1 ≤ (xs.length : Int)) := by omega
      have e4 : ¬ (1 ≤ n ∧ n ≤ (xs.length : Int) + 1) := by omega
      have e5 : n.toNat = 0 := by omega
      have e6 : (n - 1).toNat = 0 := by omega
      rw [if_neg e1, if_neg e2, if_neg e3, if_neg e4, e5, e6]
      rfl
    · have e1 : n - 1 ≥ 0 := by omega
      have e3 : ¬ (1 ≤ n - 1 ∧ n - 1 ≤ (xs.length : Int)) := by omega
      have e4 : 1 ≤ n ∧ n ≤ (xs.length : Int) + 1 := by omega
      have e5 : n.toNat = 1 := by omega
      have e6 : (n - 1).toNat = 0 := by omega
      rw [if_pos e1, if_pos hzero, if_neg e3, if_pos e4, e5, e6]
      rfl
    · have e1 : n - 1 ≥ 0 := by omega
      have e2 : ¬ (n - 1 = 0) := by omega
      have e5 : n.toNat = (n - 1).toNat + 1 := by omega
      rw [if_pos e1, if_neg e2, e5]
      by_cases e7 : 1 ≤ n - 1 ∧ n - 1 ≤ (xs.length : Int)
      · have e8 : 1 ≤ n ∧ n ≤ (xs.length : Int) + 1 := by omega
        rw [if_pos e7, if_pos e8]
        rfl
      · have e8 : ¬ (1 ≤ n ∧ n ≤ (xs.length : Int) + 1) := by omega
        rw [if_neg e7, if_neg e8]
        rfl

theorem rangeLoop_append {α β σ : Type} (body : σ → α → σ × List (ChanOp β)) (st : σ)
    (xs ys : List α) :
    rangeLoop body st (xs ++ ys) =
      ((rangeLoop body (rangeLoop body st xs).1 ys).1,
        (rangeLoop body st xs).2 ++ (rangeLoop body (rangeLoop body st xs).1 ys).2) := by
  induction xs generalizing st with
  | nil => simp [rangeLoop]
  | cons x xs ih => simp [rangeLoop, ih, List.append_assoc]

theorem sent_append_of_closes {α : Type} (t1 t2 : List (ChanOp α)) (h : closes t1 = true) :
    sent (t1 ++ t2) = sent t1 ∧ closes (t1 ++ t2) = true := by
  induction t1 with
  | nil => cases h
  | cons op t1 ih =>
    cases op with
    | send x =>
      simp only [closes] at h
      have := ih h
      exact ⟨by show x :: sent (t1 ++ t2) = x :: sent t1; rw [this.1], this.2⟩
    | close => simp [sent, closes]

/-- C3: for every `n >= 1` and every source delivering a finite sequence `xs`, `Head(n)`
yields exactly the first `min(len(xs), n)` items of `xs` in their original order; its channel
is closed once the `n`-th item is sent or once the source is closed. -/
theorem Head_yields_first {α : Type} (s : Stream α) (n : Int) (hn : 1 ≤ n)
    (hn64 : n < 2 ^ 63) :
    s.Head n = Outcome.ret
      { cap := 0
        items := s.source.items.take (min s.source.items.length n.toNat)
        closed := s.source.closed || decide (n ≤ s.source.items.length) } ∧
    (s.source.items.take (min s.source.items.length n.toNat)).length =
      min s.source.items.length n.toNat := by
  refine ⟨?_, by simp⟩
  have hnot : ¬ n < 1 := by omega
  have htake : s.source.items.take (min s.source.items.length n.toNat) =
      s.source.items.take n.toNat := by
    rw [List.take_eq_take]; omega
  by_cases hle : n ≤ (s.source.items.length : Int)
  · have hlen : (s.source.items.take n.toNat).length = n.toNat := by
      rw [List.length_take]; omega
    have hfirst := headLoop_spec (s.source.items.take n.toNat) n
      (by rw [hlen]; omega) hn64
    have hcond : 1 ≤ n ∧ n ≤ ((s.source.items.take n.toNat).length : Int) := by
      rw [hlen]; omega
    rw [if_pos hcond, List.take_take, min_self] at hfirst
    have hsplit := rangeLoop_append headBody n (s.source.items.take n.toNat)
      (s.source.items.drop n.toNat)
    rw [List.take_append_drop, hfirst] at hsplit
    have hcl : closes ((s.source.items.take n.toNat).map ChanOp.send ++ [ChanOp.close]) =
        true := closes_map_send_close _ _
    have hst : sent ((s.source.items.take n.toNat).map ChanOp.send ++ [ChanOp.close]) =
        s.source.items.take n.toNat := sent_map_send_close _ _
    simp only [Stream.Head, Stream.HeadCall, Call.go, hnot, if_false, headProducer, producer,
      hsplit, htake,
      Chan.ofTrace, Outcome.ret.injEq, Chan.mk.injEq, true_and, List.append_assoc]
    cases hc : s.source.closed
    · simp only [Bool.false_eq_true, if_false, Bool.false_or]
      have := sent_append_of_closes _
        (rangeLoop headBody (n - ↑(List.take n.toNat s.source.items).length)
          (List.drop n.toNat s.source.items)).2 hcl
      simp only [List.append_assoc] at this
      rw [this.1, this.2, hst]
      simp [hle]
    · simp only [if_true, Bool.true_or]
      have := sent_append_of_closes _
        ((rangeLoop headBody (n - ↑(List.take n.toNat s.source.items).length)
          (List.drop n.toNat s.source.items)).2 ++
          if (rangeLoop headBody (n - ↑(List.take n.toNat s.source.items).length)
            (List.drop n.toNat s.source.items)).1 > 0 then [ChanOp.close] else []) hcl
      simp only [List.append_assoc] at this
      rw [this.1, this.2, hst]
      simp
  · have hloop := headLoop_spec s.source.items n (by omega) hn64
    simp only [Stream.Head, Stream.HeadCall, Call.go, hnot, if_false, headProducer, producer,
      hloop, htake, Chan.ofTrace,
      Outcome.ret.injEq, Chan.mk.injEq, true_and]
    have e1 : ¬ (1 ≤ n ∧ n ≤ (s.source.items.length : Int)) := by omega
    have e2 : n - (s.source.items.length : Int) > 0 := by omega
    cases hc : s.source.closed <;>
      simp [e1, e2, hle, sent_map_send_append, closes_map_send_append, sent, closes,
        sent_map_send, closes_map_send, -List.map_take]

theorem Head_yields_first_witness :
    (1 : Int) ≤ 2 ∧ (2 : Int) < 2 ^ 63 ∧
    (Range (Of [1, 232, 3, 2, 3]) 0 0).Head 2 =
      Outcome.ret { cap := 0, items := [1, 232], closed := true } :=
  ⟨by decide, by decide,
    (Head_yields_first (Range (Of [1, 232, 3, 2, 3]) 0 0) 2 (by decide) (by decide)).1⟩

/-- The loop of `Skip` started with counter `i` over `xs`, while the counter cannot wrap:
the items from position `size - i` on are sent. -/
theorem skipLoop_spec {α : Type} (size : Int) (xs : List α) (i : Int) (hlo : 0 ≤ i)
    (hhi : i + (xs.length : Int) < 2 ^ 63) :
    rangeLoop (skipBody size) i xs =
      (i + xs.length, (xs.drop (size - i).toNat).map ChanOp.send) := by
  induction xs generalizing i with
  | nil => simp [rangeLoop]
  | cons x xs ih =>
    simp only [List.length_cons, Nat.cast_add, Nat.cast_one] at hhi
    have hw : wrap64 (i + 1) = i + 1 := wrap64_eq _ (by omega) (by omega)
    have h := ih (i + 1) (by omega) (by omega)
    simp only [rangeLoop, skipBody, hw, h, List.length_cons, Nat.cast_add, Nat.cast_one]
    refine Prod.ext (by simp only []; omega) ?_
    simp only []
    by_cases hge : i ≥ size
    · have e1 : (size - i).toNat = 0 := by omega
      have e2 : (size - (i + 1)).toNat = 0 := by omega
      rw [if_pos hge, e1, e2]
      rfl
    · have e1 : (size - i).toNat = (size - (i + 1)).toNat + 1 := by omega
      rw [if_neg hge, e1]
      rfl

/-- The loop of `Count` started at `c`, while the counter cannot wrap. -/
theorem countLoop_spec {α : Type} (xs : List α) (c : Int) (hlo : 0 ≤ c)
    (hhi : c + (xs.length : Int) < 2 ^ 63) :
    xs.foldl (fun count _ => wrap64 (count + 1)) c = c + xs.length := by
  induction xs generalizing c with
  | nil => simp
  | cons x xs ih =>
    simp only [List.length_cons, Nat.cast_add, Nat.cast_one] at hhi
    have hw : wrap64 (c + 1) = c + 1 := wrap64_eq _ (by omega) (by omega)
    simp only [List.foldl_cons, hw, List.length_cons, Nat.cast_add, Nat.cast_one]
    rw [ih (c + 1) (by omega) (by omega)]
    omega

/-- C4: for every `size >= 0` and every source that delivers a finite sequence `xs` (of a
length that an `int` can hold) and is then closed, `Skip(size)` yields `xs` without its first
`size` items, in order, and `Count` on the returned stream is `max(0, len(xs) - size)`. -/
theorem Skip_drops_first {α : Type} (s : Stream α) (size : Int) (hsize : 0 ≤ size)
    (hlen : (s.source.items.length : Int) < 2 ^ 63) (hclosed : s.source.closed = true) :
    ∃ c : Chan α, s.Skip size = Outcome.ret c ∧
      c.items = s.source.items.drop size.toNat ∧ c.closed = true ∧
      ∀ chan ptr : Nat,
        (Range c chan ptr).Count = Outcome.ret (max 0 ((s.source.items.length : Int) - size)) := by
  have hcount : ∀ (c : Chan α) (chan ptr : Nat), c.closed = true →
      c.items = s.source.items.drop size.toNat →
      (Range c chan ptr).Count =
        Outcome.ret (max 0 ((s.source.items.length : Int) - size)) := by
    intro c chan ptr hc hi
    have hl : (c.items.length : Int) = max 0 ((s.source.items.length : Int) - size) := by
      rw [hi, List.length_drop]; omega
    simp only [Stream.Count, Range, hc, if_true, Outcome.ret.injEq]
    rw [countLoop_spec c.items 0 (le_refl 0) (by omega), hl]
    simp
  by_cases h0 : size = 0
  · refine ⟨s.source, by simp [Stream.Skip, Stream.SkipCall, Call.returns, h0], by simp [h0],
      hclosed, ?_⟩
    intro chan ptr
    exact hcount s.source chan ptr hclosed (by simp [h0])
  · have hneg : ¬ size < 0 := by omega
    have hloop := skipLoop_spec size s.source.items 0 (le_refl 0) (by omega)
    have hitems : (Chan.ofTrace 0 (skipProducer size s.source)).items =
        s.source.items.drop size.toNat := by
      simp [Chan.ofTrace, skipProducer, producer, hloop, hclosed, sent_map_send_append, sent,
        -List.map_drop]
    have hcl : (Chan.ofTrace 0 (skipProducer size s.source)).closed = true := by
      simp [Chan.ofTrace, skipProducer, producer, hloop, hclosed, closes_map_send_append,
        closes, -List.map_drop]
    refine ⟨_, by simp only [Stream.Skip, Stream.SkipCall, Call.go, h0, hneg, if_false],
      hitems, hcl, ?_⟩
    intro chan ptr
    exact hcount _ chan ptr hcl hitems

theorem Skip_drops_first_witness :
    (0 : Int) ≤ 3 ∧ ((Range (Of [1, 2, 3, 4]) 0 0).source.items.length : Int) < 2 ^ 63 ∧
    (Range (Of [1, 2, 3, 4]) 0 0).source.closed = true ∧
    ∃ c : Chan Nat, (Range (Of [1, 2, 3, 4]) 0 0).Skip 3 = Outcome.ret c ∧
      c.items = [4] ∧ c.closed = true ∧
      ∀ chan ptr : Nat, (Range c chan ptr).Count = Outcome.ret 1 :=
  ⟨by decide, by decide, rfl,
    Skip_drops_first (Range (Of [1, 2, 3, 4]) 0 0) 3 (by decide) (by decide) rfl⟩

/-- C2: `Limit(3)` on a source of five items yields four of them, not the first three: the
loop skips only the item at index `size` and sends every item after it. -/
theorem Limit_sends_after_size :
    (Range (Of [1, 2, 3, 4, 5]) 0 0).Limit 3 =
      Outcome.ret { cap := 0, items := [1, 2, 3, 5], closed := true } ∧
    ([1, 2, 3, 5] : List Nat) ≠ [1, 2, 3, 4, 5].take (min [1, 2, 3, 4, 5].length 3) := by
  decide

/-! ## Walk -/

theorem getElem?_split {γ : Type} (l : List γ) (i : Nat) (w : γ) (h : l[i]? = some w) :
    ∃ l1 l2, l = l1 ++ w :: l2 ∧ ∀ w', l.set i w' = l1 ++ w' :: l2 := by
  obtain ⟨hi, hw⟩ := List.getElem?_eq_some.mp h
  refine ⟨l.take i, l.drop (i + 1), ?_, ?_⟩
  · rw [← hw]
    simp
  · intro w'
    rw [List.set_eq_take_append_cons_drop, if_pos hi]

theorem walkInv_init {α β : Type} (st0 : WalkState α β) (hd : st0.driver = DriverPc.acquire)
    (hp : st0.pool = 0) (hw : st0.wg = 0) (hk : st0.workers = []) (hb : st0.pipe = [])
    (hc : st0.pipeClosed = false) (ho : st0.out = []) : WalkInv st0 st0 := by
  constructor <;>
    simp [hd, hp, hw, hk, hb, hc, ho, DriverPc.holds, DriverPc.added, DriverPc.held,
      DriverPc.pastLoop, DriverPc.pastWait]

theorem walkInv_driver {α β : Type} (st0 st st' : WalkState α β) (hinv : WalkInv st0 st)
    (h : driverStep st = some st') : WalkInv st0 st' := by
  obtain ⟨hf, hsz, hsc, hpool, hle, hwg, hdr, hq, hcl, hidle, htk, hit, hord⟩ := hinv
  unfold driverStep at h
  split at h
  next hd =>
    split at h
    · cases h
      constructor <;>
        simp_all [DriverPc.holds, DriverPc.added, DriverPc.held, DriverPc.pastLoop,
          DriverPc.pastWait]
      omega
    · cases h
  next hd =>
    split at h
    next item rest hs =>
      cases h
      constructor <;>
        simp_all [DriverPc.holds, DriverPc.added, DriverPc.held, DriverPc.pastLoop,
          DriverPc.pastWait]
      omega
    next hs =>
      split at h
      · cases h
        constructor <;>
          simp_all [DriverPc.holds, DriverPc.added, DriverPc.held, DriverPc.pastLoop,
            DriverPc.pastWait]
      · cases h
  next hd =>
    split at h
    · cases h
      constructor <;>
        simp_all [DriverPc.holds, DriverPc.added, DriverPc.held, DriverPc.pastLoop,
          DriverPc.pastWait]
      omega
    · cases h
  next item hd =>
    cases h
    constructor <;>
      simp_all [DriverPc.holds, DriverPc.added, DriverPc.held, DriverPc.pastLoop,
        DriverPc.pastWait]
  next item hd =>
    cases h
    constructor <;>
      simp_all [DriverPc.holds, DriverPc.added, DriverPc.held, DriverPc.pastLoop,
        DriverPc.pastWait, Worker.live, Worker.active, NewGoroutine]
    rintro w (hw | rfl) hpc
    · exact hidle w hw hpc
    · exact absurd rfl hpc
  next hd =>
    split at h
    · cases h
      constructor <;>
        simp_all [DriverPc.holds, DriverPc.added, DriverPc.held, DriverPc.pastLoop,
          DriverPc.pastWait]
    · cases h
  next hd =>
    cases h
    constructor <;>
      simp_all [DriverPc.holds, DriverPc.added, DriverPc.held, DriverPc.pastLoop,
        DriverPc.pastWait]
  next hd => cases h

theorem walkInv_reader {α β : Type} (st0 st st' : WalkState α β) (hinv : WalkInv st0 st)
    (h : readerStep st = some st') : WalkInv st0 st' := by
  obtain ⟨hf, hsz, hsc, hpool, hle, hwg, hdr, hq, hcl, hidle, htk, hit, hord⟩ := hinv
  unfold readerStep at h
  split at h
  next item rest hp =>
    cases h
    constructor <;> simp_all
  next hp => cases h

theorem active_sum_nonneg {β : Type} (l : List (Worker β)) :
    0 ≤ (l.map Worker.active).sum := by
  induction l with
  | nil => simp
  | cons w l ih =>
    have : 0 ≤ w.active := by unfold Worker.active; split <;> decide
    simp only [List.map_cons, List.sum_cons]
    omega

theorem pending_nil_of_not_live {β : Type} (l : List (Worker β))
    (hlive : (l.map Worker.live).sum = 0)
    (hidle : ∀ w ∈ l, w.pc ≠ WorkerPc.run → w.pending = []) :
    l.flatMap Worker.pending = [] := by
  induction l with
  | nil => rfl
  | cons w l ih =>
    simp only [List.map_cons, List.sum_cons] at hlive
    have hw : w.live = 0 := by omega
    have hpc : w.pc = WorkerPc.exit := by
      unfold Worker.live at hw
      split at hw
      · assumption
      · cases hw
    have hp : w.pending = [] := hidle w (List.mem_cons_self _ _) (by simp [hpc])
    rw [List.flatMap_cons, hp, List.nil_append]
    exact ih (by omega) (fun v hv => hidle v (List.mem_cons_of_mem _ hv))

set_option maxHeartbeats 1000000 in
theorem walkInv_worker {α β : Type} (st0 st st' : WalkState α β) (i : Nat) (w : Worker β)
    (hinv : WalkInv st0 st) (hw : st.workers[i]? = some w)
    (h : workerStep st i w = some st') : WalkInv st0 st' := by
  obtain ⟨hf, hsz, hsc, hpool, hle, hwg, hdr, hq, hcl, hidle, htk, hit, hord⟩ := hinv
  obtain ⟨l1, l2, hl, hset⟩ := getElem?_split st.workers i w hw
  have hn1 := active_sum_nonneg l1
  have hn2 := active_sum_nonneg l2
  unfold workerStep at h
  split at h
  next hpc =>
    split at h
    next item rest hp =>
      split at h
      next hclosed =>
        exfalso
        have hex := hcl.mp hclosed
        have := hq (by rw [hex]; trivial)
        simp [hl, Worker.active, hpc] at this
        omega
      next hopen =>
        split at h
        next hroom =>
          cases h
          constructor <;> simp_all [Worker.live, Worker.active]
          case idle =>
            rintro v (hv | rfl | hv) hne
            · exact hidle v (Or.inl hv) hne
            · exact absurd rfl hne
            · exact hidle v (Or.inr (Or.inr hv)) hne
          case items =>
            refine List.Perm.trans ?_ hit
            rw [← Multiset.coe_eq_coe]
            simp only [← Multiset.coe_add, ← Multiset.cons_coe, Multiset.coe_nil,
              Multiset.add_cons, Multiset.cons_add, add_zero]
          case ordered =>
            intro h1
            have hl1 : l1.flatMap Worker.pending = [] :=
              pending_nil_of_not_live l1 (by omega) (fun v hv => hidle v (Or.inl hv))
            have := hord h1
            rw [hl1] at this ⊢
            simpa using this
        next => cases h
    next hp =>
      cases h
      constructor <;> simp_all [Worker.live, Worker.active]
      rintro v (hv | rfl | hv) hne
      · exact hidle v (Or.inl hv) hne
      · rfl
      · exact hidle v (Or.inr (Or.inr hv)) hne
  next hpc =>
    cases h
    have hwp : w.pending = [] := hidle w (by simp [hl]) (by simp [hpc])
    constructor <;> simp_all [Worker.live, Worker.active]
    case wg_eq => omega
    case quiet => intro hpw; have := hq hpw; omega
    case idle =>
      rintro v (hv | rfl | hv) hne
      · exact hidle v (Or.inl hv) hne
      · rfl
      · exact hidle v (Or.inr (Or.inr hv)) hne
  next hpc =>
    split at h
    next hpos =>
      cases h
      have hwp : w.pending = [] := hidle w (by simp [hl]) (by simp [hpc])
      constructor <;> simp_all [Worker.live, Worker.active]
      case pool_eq => omega
      case pool_le => omega
      case idle =>
        rintro v (hv | rfl | hv) hne
        · exact hidle v (Or.inl hv) hne
        · rfl
        · exact hidle v (Or.inr (Or.inr hv)) hne
    next => cases h
  next hpc => cases h

theorem walkInv_step {α β : Type} (st0 st st' : WalkState α β) (a : WalkAction)
    (hinv : WalkInv st0 st) (h : walkStep st a = some st') : WalkInv st0 st' := by
  cases a with
  | driver => exact walkInv_driver st0 st st' hinv h
  | worker i =>
    simp only [walkStep] at h
    split at h
    next w hw => exact walkInv_worker st0 st st' i w hinv hw h
    next => cases h
  | reader => exact walkInv_reader st0 st st' hinv h

theorem walkInv_run {α β : Type} (st0 : WalkState α β) (sched : List WalkAction)
    (st st' : WalkState α β) (hinv : WalkInv st0 st) (h : walkRun st sched = some st') :
    WalkInv st0 st' := by
  induction sched generalizing st with
  | nil =>
    simp only [walkRun, Option.some.injEq] at h
    exact h ▸ hinv
  | cons a sched ih =>
    simp only [walkRun] at h
    split at h
    next st1 h1 => exact ih st1 (walkInv_step st0 st st1 a hinv h1) h
    next => cases h

theorem walkInv_walkStart {α β : Type} (s : Stream α) (f : α → List β) (opts : List OptionFunc)
    (sched : List WalkAction) (st : WalkState α β)
    (h : walkRun (walkStart s f opts) sched = some st) : WalkInv (walkStart s f opts) st :=
  walkInv_run _ sched _ st
    (walkInv_init _ rfl rfl rfl rfl rfl rfl rfl) h

theorem running_le_live {β : Type} (l : List (Worker β)) :
    l.countP (fun w => w.pc = WorkerPc.run) ≤ (l.map Worker.live).sum := by
  induction l with
  | nil => simp
  | cons w l ih =>
    simp only [List.countP_cons, List.map_cons, List.sum_cons, Worker.live]
    cases hpc : w.pc <;> simp <;> omega

theorem not_active_of_sum_zero {β : Type} (l : List (Worker β))
    (h : (l.map Worker.active).sum = 0) : ∀ w ∈ l, w.active = 0 := by
  induction l with
  | nil => simp
  | cons v l ih =>
    simp only [List.map_cons, List.sum_cons] at h
    have h1 := active_sum_nonneg l
    have h2 : 0 ≤ v.active := by unfold Worker.active; split <;> decide
    intro w hw
    rcases List.mem_cons.mp hw with rfl | hw
    · omega
    · exact ih (by omega) w hw

/-- Once `pipe` is closed the source is exhausted, a worker was spawned for every item, no
call of `f` is still running and no worker has anything left to send. -/
theorem walkInv_closed {α β : Type} (st0 st : WalkState α β) (hinv : WalkInv st0 st)
    (hclosed : st.pipeClosed = true) :
    st.src = [] ∧ st.driver.held = [] ∧ st.workers.length = st0.src.length ∧
      st.running = 0 ∧ st.workers.flatMap Worker.pending = [] := by
  have hex := hinv.closed_iff.mp hclosed
  have hsrc := hinv.drained (by rw [hex]; trivial)
  have hq := hinv.quiet (by rw [hex]; trivial)
  have hheld : st.driver.held = [] := by rw [hex]; rfl
  have hact := not_active_of_sum_zero _ hq
  have hnr : ∀ w ∈ st.workers, w.pc ≠ WorkerPc.run := by
    intro w hw hpc
    have := hact w hw
    simp [Worker.active, hpc] at this
  refine ⟨hsrc, hheld, ?_, ?_, ?_⟩
  · have := hinv.taken
    simpa [hsrc, hheld] using this
  · unfold WalkState.running
    rw [List.countP_eq_zero]
    intro w hw
    simpa using hnr w hw
  · rw [List.flatMap_eq_nil_iff]
    intro w hw
    exact hinv.idle w hw (hnr w hw)

theorem driverStep_rank {α β : Type} (st st' : WalkState α β) (h : driverStep st = some st') :
    st'.f = st.f ∧ st'.rank < st.rank := by
  unfold driverStep at h
  split at h
  next hd =>
    split at h
    · cases h; simp [WalkState.rank, hd, DriverPc.rank]
    · cases h
  next hd =>
    split at h
    next item rest hs =>
      cases h
      simp only [WalkState.rank, hd, hs, DriverPc.rank, itemRank, List.map_cons, List.sum_cons,
        true_and]
      omega
    next hs =>
      split at h
      · cases h; simp [WalkState.rank, hd, DriverPc.rank]
      · cases h
  next hd =>
    split at h
    · cases h; simp [WalkState.rank, hd, DriverPc.rank]
    · cases h
  next item hd =>
    cases h; simp [WalkState.rank, hd, DriverPc.rank]
  next item hd =>
    cases h
    simp only [WalkState.rank, hd, DriverPc.rank, NewGoroutine, List.map_append,
      List.sum_append, List.map_cons, List.map_nil, List.sum_cons, List.sum_nil, Worker.rank,
      true_and]
    omega
  next hd =>
    split at h
    · cases h; simp [WalkState.rank, hd, DriverPc.rank]
    · cases h
  next hd => cases h; simp [WalkState.rank, hd, DriverPc.rank]
  next hd => cases h

theorem workerStep_rank {α β : Type} (st st' : WalkState α β) (i : Nat) (w : Worker β)
    (hw : st.workers[i]? = some w) (h : workerStep st i w = some st') :
    st'.f = st.f ∧ st'.rank < st.rank := by
  obtain ⟨l1, l2, hl, hset⟩ := getElem?_split st.workers i w hw
  have hrank : ∀ w' : Worker β, w'.rank < w.rank →
      ((st.workers.set i w').map Worker.rank).sum < (st.workers.map Worker.rank).sum := by
    intro w' hlt
    rw [hset, hl]
    simp only [List.map_append, List.sum_append, List.map_cons, List.sum_cons]
    omega
  unfold workerStep at h
  split at h
  next hpc =>
    split at h
    next item rest hp =>
      split at h
      · cases h
        have := hrank { pc := WorkerPc.done, pending := [] }
          (by simp [Worker.rank, hpc])
        simp only [WalkState.rank, true_and]
        omega
      · split at h
        · cases h
          have hlt : ((st.workers.set i { pc := WorkerPc.run, pending := rest }).map
              Worker.rank).sum + 2 ≤ (st.workers.map Worker.rank).sum := by
            rw [hset, hl]
            simp only [List.map_append, List.sum_append, List.map_cons, List.sum_cons,
              Worker.rank, hpc, hp, List.length_cons]
            omega
          simp only [WalkState.rank, true_and, List.length_append, List.length_singleton]
          omega
        · cases h
    next hp =>
      cases h
      have := hrank { pc := WorkerPc.done, pending := [] }
        (by simp [Worker.rank, hpc])
      simp only [WalkState.rank, true_and]
      omega
  next hpc =>
    cases h
    have := hrank { pc := WorkerPc.release, pending := w.pending }
      (by simp [Worker.rank, hpc])
    simp only [WalkState.rank, true_and]
    omega
  next hpc =>
    split at h
    · cases h
      have := hrank { pc := WorkerPc.exit, pending := w.pending }
        (by simp [Worker.rank, hpc])
      simp only [WalkState.rank, true_and]
      omega
    · cases h
  next hpc => cases h

theorem walkStep_rank {α β : Type} (st st' : WalkState α β) (a : WalkAction)
    (h : walkStep st a = some st') : st'.f = st.f ∧ st'.rank < st.rank := by
  cases a with
  | driver => exact driverStep_rank st st' h
  | worker i =>
    simp only [walkStep] at h
    split at h
    next w hw => exact workerStep_rank st st' i w hw h
    next => cases h
  | reader =>
    simp only [walkStep, readerStep] at h
    split at h
    next item rest hp =>
      cases h
      simp only [WalkState.rank, hp, List.length_cons, true_and]
      omega
    next => cases h

/-- An execution takes at most `rank` steps. -/
theorem walkRun_length {α β : Type} (sched : List WalkAction) (st st' : WalkState α β)
    (h : walkRun st sched = some st') : st'.rank + sched.length ≤ st.rank := by
  induction sched generalizing st with
  | nil =>
    simp only [walkRun, Option.some.injEq] at h
    simp [h]
  | cons a sched ih =>
    simp only [walkRun] at h
    split at h
    next st1 h1 =>
      have h2 := ih st1 h
      have h3 := (walkStep_rank st st1 a h1).2
      simp only [List.length_cons]
      omega
    next => cases h

theorem live_sum_pos {β : Type} (l : List (Worker β)) (w : Worker β) (hw : w ∈ l)
    (hpc : w.pc ≠ WorkerPc.exit) : 0 < (l.map Worker.live).sum := by
  induction l with
  | nil => cases hw
  | cons v l ih =>
    simp only [List.map_cons, List.sum_cons]
    rcases List.mem_cons.mp hw with rfl | hw
    · simp [Worker.live, hpc]
    · have := ih hw
      omega

theorem exists_live {β : Type} (l : List (Worker β)) (h : 0 < (l.map Worker.live).sum) :
    ∃ w ∈ l, w.pc ≠ WorkerPc.exit := by
  induction l with
  | nil => simp at h
  | cons v l ih =>
    by_cases hv : v.pc = WorkerPc.exit
    · simp only [List.map_cons, List.sum_cons, Worker.live, hv, if_true, Nat.zero_add] at h
      obtain ⟨w, hw, hpc⟩ := ih h
      exact ⟨w, List.mem_cons_of_mem _ hw, hpc⟩
    · exact ⟨v, List.mem_cons_self _ _, hv⟩

theorem exists_active {β : Type} (l : List (Worker β)) (h : (l.map Worker.active).sum ≠ 0) :
    ∃ w ∈ l, w.pc ≠ WorkerPc.exit := by
  by_contra hno
  apply h
  clear h
  induction l with
  | nil => rfl
  | cons v l ih =>
    have hv : v.pc = WorkerPc.exit := by
      by_contra hv
      exact hno ⟨v, List.mem_cons_self _ _, hv⟩
    have hl := ih (fun ⟨w, hw, hpc⟩ => hno ⟨w, List.mem_cons_of_mem _ hw, hpc⟩)
    simp [Worker.active, hv, hl]

/-- A worker that has not ended can take a step when `pipe` is empty. -/
theorem worker_can_step {α β : Type} (st0 st : WalkState α β) (hinv : WalkInv st0 st)
    (hsize : 0 < st0.workSize) (hpipe : st.pipe = []) (w : Worker β) (hw : w ∈ st.workers)
    (hpc : w.pc ≠ WorkerPc.exit) : ∃ a st', walkStep st a = some st' := by
  obtain ⟨i, hi, hget⟩ := List.mem_iff_getElem.mp hw
  have hget' : st.workers[i]? = some w := by
    rw [List.getElem?_eq_some]; exact ⟨hi, hget⟩
  have hpool : 0 < st.pool := by
    have := live_sum_pos st.workers w hw hpc
    have := hinv.pool_eq
    omega
  have hroom : st.pipe.length < st.workSize := by
    rw [hpipe, hinv.size_eq]; exact hsize
  refine ⟨WalkAction.worker i, ?_⟩
  simp only [walkStep, hget', workerStep]
  cases hp : w.pc with
  | run =>
    cases hq : w.pending with
    | nil => exact ⟨_, rfl⟩
    | cons e es =>
      by_cases hc : st.pipeClosed = true
      · simp [hc]
      · simp [hc, hroom]
  | done => exact ⟨_, rfl⟩
  | release => simp [hpool]
  | exit => exact absurd hp hpc

/-- No deadlock: while the source is closed behind its items and the reader has not
received everything, some goroutine can take a step. -/
theorem walk_progress {α β : Type} (st0 st : WalkState α β) (hinv : WalkInv st0 st)
    (hsrc : st0.srcClosed = true) (hsize : 0 < st0.workSize) (hnf : ¬ st.finished) :
    ∃ a st', walkStep st a = some st' := by
  cases hpipe : st.pipe with
  | cons e rest =>
    exact ⟨WalkAction.reader, Option.isSome_iff_exists.mp
      (by simp [walkStep, readerStep, hpipe])⟩
  | nil =>
    have hworker := worker_can_step st0 st hinv hsize hpipe
    cases hd : st.driver with
    | acquire =>
      by_cases hfull : st.pool < st.workSize
      · exact ⟨WalkAction.driver, Option.isSome_iff_exists.mp
          (by simp [walkStep, driverStep, hd, hfull])⟩
      · have hpe := hinv.pool_eq
        have hsz := hinv.size_eq
        simp only [hd, DriverPc.holds] at hpe
        obtain ⟨w, hw, hpc⟩ := exists_live st.workers (by omega)
        exact hworker w hw hpc
    | recv =>
      cases hs : st.src with
      | cons x rest =>
        exact ⟨WalkAction.driver, Option.isSome_iff_exists.mp
          (by simp [walkStep, driverStep, hd, hs])⟩
      | nil =>
        have := hinv.src_eq
        exact ⟨WalkAction.driver, Option.isSome_iff_exists.mp
          (by simp [walkStep, driverStep, hd, hs, this, hsrc])⟩
    | release =>
      have hpe := hinv.pool_eq
      simp only [hd, DriverPc.holds] at hpe
      have hpos : 0 < st.pool := by omega
      exact ⟨WalkAction.driver, Option.isSome_iff_exists.mp
        (by simp [walkStep, driverStep, hd, hpos])⟩
    | add item =>
      exact ⟨WalkAction.driver, Option.isSome_iff_exists.mp
        (by simp [walkStep, driverStep, hd])⟩
    | spawn item =>
      exact ⟨WalkAction.driver, Option.isSome_iff_exists.mp
        (by simp [walkStep, driverStep, hd])⟩
    | wait =>
      by_cases hwg : st.wg = 0
      · exact ⟨WalkAction.driver, Option.isSome_iff_exists.mp
          (by simp [walkStep, driverStep, hd, hwg])⟩
      · have hwe := hinv.wg_eq
        simp only [hd, DriverPc.added, add_zero] at hwe
        obtain ⟨w, hw, hpc⟩ := exists_active st.workers (by rw [← hwe]; exact hwg)
        exact hworker w hw hpc
    | close =>
      exact ⟨WalkAction.driver, Option.isSome_iff_exists.mp
        (by simp [walkStep, driverStep, hd])⟩
    | exit =>
      exact absurd ⟨hinv.closed_iff.mpr hd, hpipe⟩ hnf

/-- From every state of an execution over a source that is closed behind its items, the
goroutines can go on until the reader has received everything. -/
theorem walk_completes {α β : Type} (st0 : WalkState α β) (hsrc : st0.srcClosed = true)
    (hsize : 0 < st0.workSize) (n : Nat) :
    ∀ st : WalkState α β, WalkInv st0 st → st.rank ≤ n →
      ∃ sched st', walkRun st sched = some st' ∧ st'.finished := by
  induction n with
  | zero =>
    intro st hinv hr
    by_cases hfin : st.finished
    · exact ⟨[], st, rfl, hfin⟩
    · obtain ⟨a, st1, h1⟩ := walk_progress st0 st hinv hsrc hsize hfin
      have := (walkStep_rank st st1 a h1).2
      omega
  | succ n ih =>
    intro st hinv hr
    by_cases hfin : st.finished
    · exact ⟨[], st, rfl, hfin⟩
    · obtain ⟨a, st1, h1⟩ := walk_progress st0 st hinv hsrc hsize hfin
      have hlt := (walkStep_rank st st1 a h1).2
      obtain ⟨sched, st2, h2, hf2⟩ :=
        ih st1 (walkInv_step st0 st st1 a hinv h1) (by omega)
      exact ⟨a :: sched, st2, by simp [walkRun, h1, h2], hf2⟩

theorem loadOptions_pos (opts : List OptionFunc) : 0 < (loadOptions opts).workSize := by
  simp only [loadOptions]
  generalize List.foldl (fun (op : Options) (option : OptionFunc) => option op)
    { workSize := 0 } opts = op
  split
  · show (0 : Int) < DefaultAntsPoolSize
    decide
  · omega

theorem walkStart_workSize_pos {α β : Type} (s : Stream α) (f : α → List β)
    (opts : List OptionFunc) : 0 < (walkStart s f opts).workSize := by
  have := loadOptions_pos opts
  simp only [walkStart]
  omega

theorem flatMap_singleton_eq_map {α β : Type} (fn : α → β) (xs : List α) :
    xs.flatMap (fun item => [fn item]) = xs.map fn := by
  induction xs with
  | nil => rfl
  | cons x xs ih => simp [List.flatMap_cons, ih]

theorem flatMap_ite_eq_filter {α : Type} (p : α → Bool) (xs : List α) :
    xs.flatMap (fun item => if p item then [item] else []) = xs.filter p := by
  induction xs with
  | nil => rfl
  | cons x xs ih =>
    rw [List.flatMap_cons, ih]
    cases hp : p x <;> simp [hp, List.filter_cons]

/-- In a state of an execution of `Walk` with pool size 1, what the reader has received is
a prefix of the values `f` sends for the items of the source, taken in the order of the
source, and it is all of them once `pipe` is closed and empty. -/
theorem walk_ordered {α β : Type} (s : Stream α) (f : α → List β) (opts : List OptionFunc)
    (h1 : (loadOptions opts).workSize = 1) (sched : List WalkAction) (st : WalkState α β)
    (h : walkRun (walkStart s f opts) sched = some st) :
    st.out <+: s.source.items.flatMap f ∧
      (st.finished → st.out = s.source.items.flatMap f) := by
  have hinv := walkInv_walkStart s f opts sched st h
  have hord := hinv.ordered (by simp [walkStart, h1])
  simp only [walkStart] at hord
  refine ⟨⟨st.pipe ++ (st.workers.flatMap Worker.pending ++
    (st.driver.held ++ st.src).flatMap f), by rw [← hord]; simp only [List.append_assoc]⟩, ?_⟩
  rintro ⟨hclosed, hpipe⟩
  obtain ⟨hsrc, hheld, -, -, hpend⟩ := walkInv_closed _ st hinv hclosed
  rw [← hord, hpipe, hpend, hheld, hsrc]
  simp

/-- In a state of an execution of `Walk`, once `pipe` is closed and empty the reader has
received, as a multiset, the values `f` sends for the items of the source. -/
theorem walk_multiset {α β : Type} (s : Stream α) (f : α → List β) (opts : List OptionFunc)
    (sched : List WalkAction) (st : WalkState α β)
    (h : walkRun (walkStart s f opts) sched = some st) (hfin : st.finished) :
    (st.out : Multiset β) = (s.source.items.flatMap f : Multiset β) := by
  have hinv := walkInv_walkStart s f opts sched st h
  obtain ⟨hsrc, hheld, -, -, hpend⟩ := walkInv_closed _ st hinv hfin.1
  have hit := hinv.items
  rw [hfin.2, hpend, hheld, hsrc] at hit
  simp only [walkStart, List.append_nil, List.flatMap_nil] at hit
  exact Multiset.coe_eq_coe.mpr hit

/-- Over a source that is closed behind its items some execution of `Walk` goes on until
the reader has received everything. -/
theorem walk_finishes {α β : Type} (s : Stream α) (f : α → List β) (opts : List OptionFunc)
    (hclosed : s.source.closed = true) :
    ∃ sched st, walkRun (walkStart s f opts) sched = some st ∧ st.finished :=
  walk_completes (walkStart s f opts) hclosed (walkStart_workSize_pos s f opts) _ _
    (walkInv_init _ rfl rfl rfl rfl rfl rfl rfl) (le_refl _)

/-- A pool size within the limit of `make`: the call of `Walk` returns, in the state
`walkStart`. -/
theorem Walk_returns {α β : Type} (s : Stream α) (f : α → List β) (opts : List OptionFunc)
    (hfit : makechanOutOfRange (loadOptions opts).workSize = false) :
    s.Walk f opts = Outcome.ret (walkStart s f opts) := by
  simp only [Stream.Walk, hfit, Bool.false_eq_true, if_false]

/-- A pool size beyond the limit of `make`: the call of `Walk` panics. -/
theorem Walk_panics {α β : Type} (s : Stream α) (f : α → List β) (opts : List OptionFunc)
    (hout : makechanOutOfRange (loadOptions opts).workSize = true) :
    s.Walk f opts = Outcome.panic "makechan: size out of range" := by
  simp only [Stream.Walk, hout, if_true]

theorem makechanOutOfRange_one : makechanOutOfRange 1 = false := by
  decide

/-- C5: with pool size 1 and a source that delivers a finite sequence `xs` and is then
closed, `Walk` returns, and in every state of the execution that follows the reader has
received a prefix of the concatenation, in the order of `xs`, of the values `f` sends for
each item; when `pipe` is closed and empty it has received all of it, and some execution gets
there.  Hence `Map(fn)` yields `[fn(x) for x in xs]` and `Filter(p)` the items of `xs` that
satisfy `p`, in order. -/
theorem Walk_pool_one_keeps_order {α β : Type} (s : Stream α) (f : α → List β) (fn : α → β)
    (p : α → Bool) (opts : List OptionFunc) (h1 : (loadOptions opts).workSize = 1)
    (hclosed : s.source.closed = true) :
    (∃ st0, s.Walk f opts = Outcome.ret st0 ∧
      (∀ sched st, walkRun st0 sched = some st →
        st.out <+: s.source.items.flatMap f ∧
          (st.finished → st.out = s.source.items.flatMap f)) ∧
      (∃ sched st, walkRun st0 sched = some st ∧ st.finished)) ∧
    (∃ st0, s.Map fn opts = Outcome.ret st0 ∧
      (∀ sched st, walkRun st0 sched = some st →
        st.out <+: s.source.items.map fn ∧ (st.finished → st.out = s.source.items.map fn)) ∧
      (∃ sched st, walkRun st0 sched = some st ∧ st.finished)) ∧
    (∃ st0, s.Filter p opts = Outcome.ret st0 ∧
      (∀ sched st, walkRun st0 sched = some st →
        st.out <+: s.source.items.filter p ∧
          (st.finished → st.out = s.source.items.filter p)) ∧
      (∃ sched st, walkRun st0 sched = some st ∧ st.finished)) := by
  have hfit : makechanOutOfRange (loadOptions opts).workSize = false := by
    rw [h1]
    exact makechanOutOfRange_one
  refine ⟨⟨_, Walk_returns s f opts hfit, fun sched st h => walk_ordered s f opts h1 sched st h,
      walk_finishes s f opts hclosed⟩,
    ⟨_, Walk_returns s _ opts hfit, fun sched st h => ?_, walk_finishes s _ opts hclosed⟩,
    ⟨_, Walk_returns s _ opts hfit, fun sched st h => ?_, walk_finishes s _ opts hclosed⟩⟩
  · have := walk_ordered s _ opts h1 sched st h
    rwa [flatMap_singleton_eq_map] at this
  · have := walk_ordered s _ opts h1 sched st h
    rwa [flatMap_ite_eq_filter] at this

theorem Walk_pool_one_keeps_order_witness :
    (loadOptions [WithPoolSize 1]).workSize = 1 ∧
    (Range (Of [1, 2, 3, 4]) 0 0).source.closed = true ∧
    (∃ st0, (Range (Of [1, 2, 3, 4]) 0 0).Map (fun x => x + 1) [WithPoolSize 1] =
        Outcome.ret st0 ∧
      ∃ sched st, walkRun st0 sched = some st ∧ st.finished ∧ st.out = [2, 3, 4, 5]) ∧
    (∃ st0, (Range (Of [1, 2, 3, 4]) 0 0).Filter (fun x => decide (x > 2)) [WithPoolSize 1] =
        Outcome.ret st0 ∧
      ∃ sched st, walkRun st0 sched = some st ∧ st.finished ∧ st.out = [3, 4]) :=
  have T := Walk_pool_one_keeps_order (Range (Of [1, 2, 3, 4]) 0 0)
    (fun x => [x]) (fun x => x + 1) (fun x => decide (x > 2)) [WithPoolSize 1] rfl rfl
  ⟨rfl, rfl,
    match T.2.1 with
    | ⟨st0, h0, hall, sched, st, hr, hf⟩ => ⟨st0, h0, sched, st, hr, hf, (hall sched st hr).2 hf⟩,
    match T.2.2 with
    | ⟨st0, h0, hall, sched, st, hr, hf⟩ => ⟨st0, h0, sched, st, hr, hf, (hall sched st hr).2 hf⟩⟩

/-- C6, as stated, fails: `WithPoolSize(1 << 62)` gives a pool size that is at least 1, and
`Walk`, `Map` and `Filter` panic in `pipe := make(chan interface{}, option.workSize)`.  No
goroutine is started, `f` is not called, and there is no output queue to close. -/
theorem Walk_pool_size_out_of_range_panics :
    1 ≤ (loadOptions [WithPoolSize (2 ^ 62)]).workSize ∧
    (Range (Of [1, 2]) 0 0).source.closed = true ∧
    (Range (Of [1, 2]) 0 0).Walk (fun x => [x + 1]) [WithPoolSize (2 ^ 62)] =
      Outcome.panic "makechan: size out of range" ∧
    (Range (Of [1, 2]) 0 0).Map (fun x => x + 1) [WithPoolSize (2 ^ 62)] =
      Outcome.panic "makechan: size out of range" ∧
    (Range (Of [1, 2]) 0 0).Filter (fun x => decide (x > 1)) [WithPoolSize (2 ^ 62)] =
      Outcome.panic "makechan: size out of range" ∧
    ¬ ∃ st0, (Range (Of [1, 2]) 0 0).Walk (fun x => [x + 1]) [WithPoolSize (2 ^ 62)] =
      Outcome.ret st0 := by
  have hout : makechanOutOfRange (loadOptions [WithPoolSize (2 ^ 62)]).workSize = true := by
    decide
  refine ⟨by decide, rfl, Walk_panics _ _ _ hout, Walk_panics _ _ _ hout,
    Walk_panics _ _ _ hout, ?_⟩
  rintro ⟨st0, h0⟩
  rw [Walk_panics _ _ _ hout] at h0
  cases h0

/-- C6, amended: for every pool size that is at least 1 and within the limit of `make`,
`Walk` returns, and in every state of the execution that follows `pipe` is closed only after
a worker was spawned for each of the `K` items of the source and every call of `f` has
returned, with nothing left to send; once `pipe` is closed and empty the reader has received,
as a multiset, exactly the values the `K` calls send.  Over a source that is closed behind
its items a goroutine can always take a step until then, an execution has at most `rank`
steps, and some execution gets there.  Hence `Map(fn)` yields the multiset of the `fn(x)` and
`Filter(p)` the multiset of the items that satisfy `p`. -/
theorem Walk_closes_after_all_calls {α β : Type} (s : Stream α) (f : α → List β)
    (fn : α → β) (p : α → Bool) (opts : List OptionFunc)
    (hfit : makechanOutOfRange (loadOptions opts).workSize = false) :
    (∃ st0, s.Walk f opts = Outcome.ret st0 ∧
      (∀ sched st, walkRun st0 sched = some st →
        (st.pipeClosed = true →
          st.src = [] ∧ st.workers.length = s.source.items.length ∧ st.running = 0 ∧
            ∀ w ∈ st.workers, w.pending = []) ∧
        (st.finished → (st.out : Multiset β) = (s.source.items.flatMap f : Multiset β)) ∧
        (s.source.closed = true → ¬ st.finished → ∃ a st', walkStep st a = some st') ∧
        sched.length ≤ st0.rank) ∧
      (s.source.closed = true → ∃ sched st, walkRun st0 sched = some st ∧ st.finished)) ∧
    (∃ st0, s.Map fn opts = Outcome.ret st0 ∧
      (∀ sched st, walkRun st0 sched = some st → st.finished →
        (st.out : Multiset β) = (s.source.items.map fn : Multiset β)) ∧
      (s.source.closed = true → ∃ sched st, walkRun st0 sched = some st ∧ st.finished)) ∧
    (∃ st0, s.Filter p opts = Outcome.ret st0 ∧
      (∀ sched st, walkRun st0 sched = some st → st.finished →
        (st.out : Multiset α) = (s.source.items.filter p : Multiset α)) ∧
      (s.source.closed = true → ∃ sched st, walkRun st0 sched = some st ∧ st.finished)) := by
  refine ⟨⟨_, Walk_returns s f opts hfit, fun sched st h => ?_,
      fun hclosed => walk_finishes s f opts hclosed⟩,
    ⟨_, Walk_returns s _ opts hfit, fun sched st h hf => ?_,
      fun hclosed => walk_finishes s _ opts hclosed⟩,
    ⟨_, Walk_returns s _ opts hfit, fun sched st h hf => ?_,
      fun hclosed => walk_finishes s _ opts hclosed⟩⟩
  · have hinv := walkInv_walkStart s f opts sched st h
    refine ⟨fun hc => ?_, walk_multiset s f opts sched st h, fun hclosed hnf => ?_, ?_⟩
    · obtain ⟨hsrc, -, hlen, hrun, hpend⟩ := walkInv_closed _ st hinv hc
      refine ⟨hsrc, hlen, hrun, ?_⟩
      rw [List.flatMap_eq_nil_iff] at hpend
      exact hpend
    · exact walk_progress _ st hinv hclosed (walkStart_workSize_pos s f opts) hnf
    · have := walkRun_length sched _ st h
      omega
  · have := walk_multiset s _ opts sched st h hf
    rwa [flatMap_singleton_eq_map] at this
  · have := walk_multiset s _ opts sched st h hf
    rwa [flatMap_ite_eq_filter] at this

theorem Walk_closes_after_all_calls_witness :
    makechanOutOfRange (loadOptions [WithPoolSize 2]).workSize = false ∧
    ∃ st0, (Range (Of [1, 2]) 0 0).Walk (fun x => [x + 1]) [WithPoolSize 2] =
        Outcome.ret st0 ∧
      walkRun st0
        [.driver, .driver, .driver, .driver, .driver, .driver, .driver, .driver,
         .worker 1, .worker 0, .worker 1, .worker 0, .worker 1, .worker 0, .worker 1,
         .worker 0, .driver, .driver, .driver, .driver, .driver, .reader, .reader] =
        some
          { f := fun x => [x + 1], workSize := 2, src := [], srcClosed := true
            driver := DriverPc.exit, pool := 0, wg := 0
            workers := [{ pc := WorkerPc.exit, pending := [] },
              { pc := WorkerPc.exit, pending := [] }]
            pipe := [], pipeClosed := true, out := [3, 2] } ∧
      (([3, 2] : List Nat) : Multiset Nat) =
        (([1, 2].flatMap (fun x => [x + 1]) : List Nat) : Multiset Nat) :=
  have hfit : makechanOutOfRange (loadOptions [WithPoolSize 2]).workSize = false := by decide
  ⟨hfit, walkStart (Range (Of [1, 2]) 0 0) (fun x => [x + 1]) [WithPoolSize 2],
    Walk_returns _ _ _ hfit, rfl,
    match (Walk_closes_after_all_calls (Range (Of [1, 2]) 0 0) (fun x => [x + 1])
      (fun x => x) (fun _ => true) [WithPoolSize 2] hfit).1 with
    | ⟨st0, h0, hall, _⟩ =>
      (hall
        [.driver, .driver, .driver, .driver, .driver, .driver, .driver, .driver,
         .worker 1, .worker 0, .worker 1, .worker 0, .worker 1, .worker 0, .worker 1,
         .worker 0, .driver, .driver, .driver, .driver, .driver, .reader, .reader]
        { f := fun x => [x + 1], workSize := 2, src := [], srcClosed := true
          driver := DriverPc.exit, pool := 0, wg := 0
          workers := [{ pc := WorkerPc.exit, pending := [] },
            { pc := WorkerPc.exit, pending := [] }]
          pipe := [], pipeClosed := true, out := [3, 2] }
        (by
          have hst : st0 = walkStart (Range (Of [1, 2]) 0 0) (fun x => [x + 1])
              [WithPoolSize 2] :=
            Outcome.ret.inj ((h0.symm.trans (Walk_returns _ _ _ hfit)))
          rw [hst]
          rfl)).2.1 ⟨rfl, rfl⟩⟩

/-- C9: in every state of an execution of `Walk` with pool size `w`, the number of calls of
`f` that have started and not yet returned is at most `w`.  The executions are those from
the state in which `Walk` returns; a call of `Walk` that does not return in that state has
panicked in `make`, and then no call of `f` is started. -/
theorem Walk_running_le_workSize {α β : Type} (s : Stream α) (f : α → List β)
    (opts : List OptionFunc) (sched : List WalkAction) (st : WalkState α β)
    (h : walkRun (walkStart s f opts) sched = some st) :
    (st.running : Int) ≤ (loadOptions opts).workSize ∧
    (s.Walk f opts = Outcome.ret (walkStart s f opts) ∨
      s.Walk f opts = Outcome.panic "makechan: size out of range") := by
  have hinv := walkInv_walkStart s f opts sched st h
  have h1 := running_le_live st.workers
  have h2 := hinv.pool_eq
  have h3 := hinv.pool_le
  have h4 := hinv.size_eq
  have h5 := loadOptions_pos opts
  simp only [walkStart] at h4
  refine ⟨?_, ?_⟩
  · unfold WalkState.running
    omega
  · cases hfit : makechanOutOfRange (loadOptions opts).workSize
    · exact Or.inl (Walk_returns s f opts hfit)
    · exact Or.inr (Walk_panics s f opts hfit)

theorem Walk_running_le_workSize_witness :
    walkRun (walkStart (Range (Of [1, 2, 3]) 0 0) (fun x => [x + 1]) [WithPoolSize 2])
      [.driver, .driver, .driver, .driver, .driver, .driver, .driver, .driver] =
      some
        { f := fun x => [x + 1], workSize := 2, src := [3], srcClosed := true
          driver := DriverPc.acquire, pool := 2, wg := 2
          workers := [{ pc := WorkerPc.run, pending := [2] },
            { pc := WorkerPc.run, pending := [3] }]
          pipe := [], pipeClosed := false, out := [] } ∧
    (Range (Of [1, 2, 3]) 0 0).Walk (fun x => [x + 1]) [WithPoolSize 2] =
      Outcome.ret (walkStart (Range (Of [1, 2, 3]) 0 0) (fun x => [x + 1]) [WithPoolSize 2]) ∧
    ((2 : Nat) : Int) ≤ (loadOptions [WithPoolSize 2]).workSize :=
  ⟨rfl, Walk_returns _ _ _ (by decide),
    (Walk_running_le_workSize (Range (Of [1, 2, 3]) 0 0) (fun x => [x + 1]) [WithPoolSize 2]
      [.driver, .driver, .driver, .driver, .driver, .driver, .driver, .driver]
      { f := fun x => [x + 1], workSize := 2, src := [3], srcClosed := true
        driver := DriverPc.acquire, pool := 2, wg := 2
        workers := [{ pc := WorkerPc.run, pending := [2] },
          { pc := WorkerPc.run, pending := [3] }]
        pipe := [], pipeClosed := false, out := [] } rfl).1⟩

/-! ## Concat -/

theorem chanAt_split {α : Type} (chans : Chans α) (a : Nat) (c : Chan α)
    (h : chanAt chans a = some c) :
    ∃ l1 l2, chans = l1 ++ (a, c) :: l2 ∧ ∀ c', setChan chans a c' = l1 ++ (a, c') :: l2 := by
  induction chans with
  | nil => cases h
  | cons e rest ih =>
    obtain ⟨b, cb⟩ := e
    by_cases hb : b = a
    · simp only [chanAt, hb, if_true, Option.some.injEq] at h
      subst hb h
      exact ⟨[], rest, rfl, fun c' => by simp [setChan]⟩
    · simp only [chanAt, hb, if_false] at h
      obtain ⟨l1, l2, h1, h2⟩ := ih h
      refine ⟨(b, cb) :: l1, l2, by simp [h1], fun c' => ?_⟩
      simp [setChan, hb, h2]

theorem chanAt_of_mem {α : Type} (chans : Chans α) (e : Nat × Chan α) (he : e ∈ chans) :
    ∃ c, chanAt chans e.1 = some c := by
  induction chans with
  | nil => cases he
  | cons x rest ih =>
    obtain ⟨b, cb⟩ := x
    by_cases hb : b = e.1
    · exact ⟨cb, by simp [chanAt, hb]⟩
    · rcases List.mem_cons.mp he with rfl | he
      · exact absurd rfl hb
      · obtain ⟨c, hc⟩ := ih he
        exact ⟨c, by simp [chanAt, hb, hc]⟩

theorem drainer_active_nonneg {α : Type} (l : List (Drainer α)) :
    0 ≤ (l.map Drainer.active).sum := by
  induction l with
  | nil => simp
  | cons d l ih =>
    have : 0 ≤ d.active := by unfold Drainer.active; split <;> decide
    simp only [List.map_cons, List.sum_cons]
    omega

theorem drainer_exit_of_sum_zero {α : Type} (l : List (Drainer α))
    (h : (l.map Drainer.active).sum = 0) : ∀ d ∈ l, d.pc = DrainerPc.exit := by
  induction l with
  | nil => simp
  | cons v l ih =>
    simp only [List.map_cons, List.sum_cons] at h
    have h1 := drainer_active_nonneg l
    have h2 : 0 ≤ v.active := by unfold Drainer.active; split <;> decide
    intro d hd
    rcases List.mem_cons.mp hd with rfl | hd
    · have h3 : d.active = 0 := by omega
      unfold Drainer.active at h3
      split at h3
      · assumption
      · cases h3
    · exact ih (by omega) d hd

theorem concatInv_closer {α : Type} (st0 st st' : ConcatState α) (hinv : ConcatInv st0 st)
    (h : closerStep st = some st') : ConcatInv st0 st' := by
  obtain ⟨hnd, hkn, hcov, hsc, hwg, hq, hcl, hso, hdr, hit⟩ := hinv
  unfold closerStep at h
  split at h
  next hc =>
    split at h
    next hz =>
      cases h
      refine ⟨hnd, hkn, hcov, hsc, hwg, fun _ => ?_, ?_, hso, hdr, hit⟩
      · rw [← hwg]; exact hz
      · simp only [reduceCtorEq, iff_false]
        intro hclosed
        have := hcl.mp hclosed
        rw [hc] at this
        cases this
    · cases h
  next hc =>
    cases h
    refine ⟨hnd, hkn, hcov, hsc, hwg, fun _ => hq (by rw [hc]; decide), by simp, hso, hdr, hit⟩
  next hc => cases h

theorem chanAt_of_key {α : Type} (chans : Chans α) (a : Nat) (ha : a ∈ chans.map Prod.fst) :
    ∃ c, chanAt chans a = some c := by
  obtain ⟨e, he, rfl⟩ := List.mem_map.mp ha
  exact chanAt_of_mem chans e he

theorem chan_unique {α : Type} (k1 k2 : Chans α) (a : Nat) (c : Chan α)
    (hnd : ((k1 ++ (a, c) :: k2).map Prod.fst).Nodup) (e : Nat × Chan α)
    (he : e ∈ k1 ++ (a, c) :: k2) (hea : e.1 = a) : e = (a, c) := by
  simp only [List.map_append, List.map_cons] at hnd
  have h1 := List.nodup_append.mp hnd
  have h2 := List.nodup_cons.mp h1.2.1
  rcases List.mem_append.mp he with h | h
  · exfalso
    exact h1.2.2 (List.mem_map_of_mem Prod.fst h) (by rw [hea]; exact List.mem_cons_self _ _)
  · rcases List.mem_cons.mp h with h | h
    · exact h
    · exfalso
      exact h2.1 (hea ▸ List.mem_map_of_mem Prod.fst h)

set_option maxHeartbeats 1000000 in
theorem concatInv_drainer {α : Type} (st0 st st' : ConcatState α) (i : Nat) (d : Drainer α)
    (hinv : ConcatInv st0 st) (hd : st.drainers[i]? = some d)
    (h : drainerStep st i d = some st') : ConcatInv st0 st' := by
  obtain ⟨hnd, hkn, hcov, hsc, hwg, hq, hcl, hso, hdr, hit⟩ := hinv
  obtain ⟨l1, l2, hl, hset⟩ := getElem?_split st.drainers i d hd
  have hn1 := drainer_active_nonneg l1
  have hn2 := drainer_active_nonneg l2
  have hchan : ∀ pc, (st.drainers.set i { d with pc := pc }).map Drainer.chan =
      st.drainers.map Drainer.chan := by
    intro pc
    rw [hset, hl]
    simp
  unfold drainerStep at h
  split at h
  next hpc =>
    split at h
    next c hc =>
      obtain ⟨k1, k2, hk, hkset⟩ := chanAt_split st.chans d.chan c hc
      have hkeys : ∀ c', (setChan st.chans d.chan c').map Prod.fst = st.chans.map Prod.fst := by
        intro c'
        rw [hkset, hk]
        simp
      split at h
      next item rest hi =>
        cases h
        refine ⟨by simp only [hkeys]; exact hnd, by simp only [hkeys, hchan]; exact hkn,
          by simp only [hkeys, hchan]; exact hcov, ?_, ?_, ?_, hcl, hso, ?_, ?_⟩
        · intro hall e he
          simp only [hkset, List.mem_append, List.mem_cons] at he
          have hold := hsc hall
          rw [hk] at hold
          rcases he with he | rfl | he
          · exact hold e (by simp [he])
          · exact hold (d.chan, c) (by simp)
          · exact hold e (by simp [he])
        · simp only [hset]
          rw [hl] at hwg
          simpa [Drainer.active, hpc] using hwg
        · intro hne
          have := hq hne
          simp only [hset]
          rw [hl] at this
          simpa [Drainer.active, hpc] using this
        · intro v hv hpast e he hev
          simp only [hset, List.mem_append, List.mem_cons] at hv
          have hvold : v ∈ st.drainers := by
            rcases hv with hv | rfl | hv
            · rw [hl]; simp [hv]
            · simp [Drainer.pastLoop] at hpast
            · rw [hl]; simp [hv]
          simp only [hkset, List.mem_append, List.mem_cons] at he
          rcases he with he | rfl | he
          · exact hdr v hvold hpast e (by rw [hk]; simp [he]) hev
          · have := hdr v hvold hpast (d.chan, c) (by rw [hk]; simp) hev
            rw [hi] at this
            cases this.1
          · exact hdr v hvold hpast e (by rw [hk]; simp [he]) hev
        · refine List.Perm.trans ?_ hit
          simp only [hset, hkset, chanItems]
          rw [hl, hk]
          simp only [List.flatMap_append, List.flatMap_cons, Drainer.held, hpc, hi]
          rw [← Multiset.coe_eq_coe]
          simp only [← Multiset.coe_add, ← Multiset.cons_coe, Multiset.coe_nil,
            Multiset.add_cons, Multiset.cons_add, add_zero, zero_add]
      next hi =>
        split at h
        next hclosed =>
          cases h
          refine ⟨hnd, by simp only [hchan]; exact hkn, by simp only [hchan]; exact hcov, hsc,
            ?_, ?_, hcl, hso, ?_, ?_⟩
          · simp only [hset]
            rw [hl] at hwg
            simpa [Drainer.active, hpc] using hwg
          · intro hne
            have := hq hne
            simp only [hset]
            rw [hl] at this
            simpa [Drainer.active, hpc] using this
          · intro v hv hpast e he hev
            simp only [hset, List.mem_append, List.mem_cons] at hv
            rcases hv with hv | rfl | hv
            · exact hdr v (by rw [hl]; simp [hv]) hpast e he hev
            · have := chan_unique k1 k2 d.chan c (hk ▸ hnd) e (hk ▸ he) hev
              rw [this]
              exact ⟨hi, hclosed⟩
            · exact hdr v (by rw [hl]; simp [hv]) hpast e he hev
          · refine List.Perm.trans ?_ hit
            simp only [hset]
            rw [hl]
            simp [List.flatMap_append, List.flatMap_cons, Drainer.held, hpc]
        next => cases h
    next => cases h
  next item hpc =>
    split at h
    next hclosed =>
      exfalso
      have hex := hcl.mp hclosed
      have := hq (by rw [hex]; decide)
      simp [hl, Drainer.active, hpc] at this
      omega
    next hopen =>
      cases h
      refine ⟨hnd, by simp only [hchan]; exact hkn, by simp only [hchan]; exact hcov, hsc,
        ?_, ?_, hcl, hso, ?_, ?_⟩
      · simp only [hset]
        rw [hl] at hwg
        simpa [Drainer.active, hpc] using hwg
      · intro hne
        have := hq hne
        simp only [hset]
        rw [hl] at this
        simpa [Drainer.active, hpc] using this
      · intro v hv hpast e he hev
        simp only [hset, List.mem_append, List.mem_cons] at hv
        rcases hv with hv | rfl | hv
        · exact hdr v (by rw [hl]; simp [hv]) hpast e he hev
        · simp [Drainer.pastLoop] at hpast
        · exact hdr v (by rw [hl]; simp [hv]) hpast e he hev
      · refine List.Perm.trans ?_ hit
        simp only [hset]
        rw [hl]
        simp only [List.flatMap_append, List.flatMap_cons, Drainer.held, hpc]
        rw [← Multiset.coe_eq_coe]
        simp only [← Multiset.coe_add, ← Multiset.cons_coe, Multiset.coe_nil,
          Multiset.add_cons, Multiset.cons_add, add_zero, zero_add]
  next hpc =>
    cases h
    have hact : (List.map Drainer.active st.drainers).sum =
        (List.map Drainer.active l1).sum + 1 + (List.map Drainer.active l2).sum := by
      rw [hl]
      simp [Drainer.active, hpc]
      omega
    have hact' : (List.map Drainer.active
        (st.drainers.set i { d with pc := DrainerPc.exit })).sum =
        (List.map Drainer.active l1).sum + (List.map Drainer.active l2).sum := by
      rw [hset]
      simp [Drainer.active]
    refine ⟨hnd, by simp only [hchan]; exact hkn, by simp only [hchan]; exact hcov, hsc,
      ?_, ?_, hcl, hso, ?_, ?_⟩
    · simp only [hact']
      rw [hact] at hwg
      omega
    · intro hne
      have := hq hne
      omega
    · intro v hv hpast e he hev
      simp only [hset, List.mem_append, List.mem_cons] at hv
      rcases hv with hv | rfl | hv
      · exact hdr v (by rw [hl]; simp [hv]) hpast e he hev
      · exact hdr d (by rw [hl]; simp) (Or.inl hpc) e he hev
      · exact hdr v (by rw [hl]; simp [hv]) hpast e he hev
    · refine List.Perm.trans ?_ hit
      simp only [hset]
      rw [hl]
      simp [List.flatMap_append, List.flatMap_cons, Drainer.held, hpc]
  next hpc => cases h

theorem concatInv_step {α : Type} (st0 st st' : ConcatState α) (a : ConcatAction)
    (hinv : ConcatInv st0 st) (h : concatStep st a = some st') : ConcatInv st0 st' := by
  cases a with
  | drainer i =>
    simp only [concatStep] at h
    split at h
    next d hd => exact concatInv_drainer st0 st st' i d hinv hd h
    next => cases h
  | closer => exact concatInv_closer st0 st st' hinv h

theorem concatInv_run {α : Type} (st0 : ConcatState α) (sched : List ConcatAction)
    (st st' : ConcatState α) (hinv : ConcatInv st0 st) (h : concatRun st sched = some st') :
    ConcatInv st0 st' := by
  induction sched generalizing st with
  | nil =>
    simp only [concatRun, Option.some.injEq] at h
    exact h ▸ hinv
  | cons a sched ih =>
    simp only [concatRun] at h
    split at h
    next st1 h1 => exact ih st1 (concatInv_step st0 st st1 a hinv h1) h
    next => cases h

theorem mkChans_keys {α : Type} (l : List (Stream α)) (a : Nat) :
    a ∈ (mkChans l).map Prod.fst ↔ a ∈ l.map Stream.chan := by
  induction l with
  | nil => simp [mkChans]
  | cons t l ih =>
    simp only [mkChans, List.map_cons, List.mem_cons]
    constructor
    · rintro (h | h)
      · exact Or.inl h
      · obtain ⟨e, he, rfl⟩ := List.mem_map.mp h
        have he' := (List.mem_filter.mp he).1
        exact Or.inr (ih.mp (List.mem_map_of_mem Prod.fst he'))
    · rintro (h | h)
      · exact Or.inl h
      · by_cases hat : a = t.chan
        · exact Or.inl hat
        · obtain ⟨e, he, rfl⟩ := List.mem_map.mp (ih.mpr h)
          exact Or.inr (List.mem_map.mpr ⟨e, List.mem_filter.mpr ⟨he, by simpa using hat⟩, rfl⟩)

theorem mkChans_nodup {α : Type} (l : List (Stream α)) :
    ((mkChans l).map Prod.fst).Nodup := by
  induction l with
  | nil => simp [mkChans]
  | cons t l ih =>
    simp only [mkChans, List.map_cons, List.nodup_cons]
    constructor
    · intro h
      obtain ⟨e, he, hea⟩ := List.mem_map.mp h
      have := (List.mem_filter.mp he).2
      simp [hea] at this
    · exact (ih.sublist (List.Sublist.map _ (List.filter_sublist _)))

/-- Streams over pairwise distinct channels: `mkChans` lists the channel of each. -/
theorem mkChans_of_nodup {α : Type} (l : List (Stream α)) (h : (l.map Stream.chan).Nodup) :
    mkChans l = l.map (fun t => (t.chan, t.source)) := by
  induction l with
  | nil => rfl
  | cons t l ih =>
    simp only [List.map_cons, List.nodup_cons] at h
    simp only [mkChans, List.map_cons, ih h.2]
    congr 1
    rw [List.filter_eq_self]
    intro e he
    obtain ⟨u, hu, rfl⟩ := List.mem_map.mp he
    have : u.chan ≠ t.chan := by
      intro heq
      exact h.1 (heq ▸ List.mem_map_of_mem Stream.chan hu)
    simpa using this

theorem drainers_active_recv {α : Type} (l : List (Stream α)) :
    ((l.map (fun t => ({ chan := t.chan, pc := DrainerPc.recv } : Drainer α))).map
      Drainer.active).sum = l.length := by
  induction l with
  | nil => rfl
  | cons t l ih =>
    simp only [List.map_cons, List.sum_cons, ih, List.length_cons, Drainer.active]
    push_cast
    omega

theorem drainers_held_recv {α : Type} (l : List (Stream α)) :
    (l.map (fun t => ({ chan := t.chan, pc := DrainerPc.recv } : Drainer α))).flatMap
      Drainer.held = [] := by
  induction l with
  | nil => rfl
  | cons t l ih => simp [List.flatMap_cons, Drainer.held, ih]

/-- The state in which `Concat` returns satisfies the invariant. -/
theorem concatInv_init {α : Type} (s : Stream α) (others : List (Stream α))
    (st0 : ConcatState α) (h : s.Concat others = Outcome.ret st0) : ConcatInv st0 st0 := by
  unfold Stream.Concat at h
  split at h
  · cases h
  · cases h
    refine ⟨mkChans_nodup _, ?_, ?_, fun hall => hall, ?_, by simp, by simp, rfl, ?_,
      ?_⟩
    · intro a ha
      rw [mkChans_keys]
      simpa [List.map_map, Function.comp_def] using ha
    · intro a ha
      rw [mkChans_keys] at ha
      simpa [List.map_map, Function.comp_def] using ha
    · simp only [drainers_active_recv, List.length_append, List.length_singleton]
      push_cast
      rfl
    · intro d hd hpast
      obtain ⟨t, -, rfl⟩ := List.mem_map.mp hd
      simp [Drainer.pastLoop] at hpast
    · simp only [drainers_held_recv, List.nil_append, List.append_nil]
      exact List.Perm.refl _

theorem drainerStep_rank {α : Type} (st st' : ConcatState α) (i : Nat) (d : Drainer α)
    (hd : st.drainers[i]? = some d) (h : drainerStep st i d = some st') :
    st'.rank < st.rank := by
  obtain ⟨l1, l2, hl, hset⟩ := getElem?_split st.drainers i d hd
  have hrank : ∀ d' : Drainer α,
      ((st.drainers.set i d').map Drainer.rank).sum + d.rank =
        (st.drainers.map Drainer.rank).sum + d'.rank := by
    intro d'
    rw [hset, hl]
    simp only [List.map_append, List.sum_append, List.map_cons, List.sum_cons]
    omega
  unfold drainerStep at h
  split at h
  next hpc =>
    split at h
    next c hc =>
      obtain ⟨k1, k2, hk, hkset⟩ := chanAt_split st.chans d.chan c hc
      split at h
      next item rest hi =>
        cases h
        have := hrank { d with pc := DrainerPc.send item }
        have hlen : (chanItems (setChan st.chans d.chan { c with items := rest })).length + 1 =
            (chanItems st.chans).length := by
          rw [hkset, hk]
          simp only [chanItems, List.flatMap_append, List.flatMap_cons, List.length_append, hi,
            List.length_cons]
          omega
        simp only [ConcatState.rank, Drainer.rank, hpc] at this ⊢
        omega
      next hi =>
        split at h
        · cases h
          have := hrank { d with pc := DrainerPc.done }
          simp only [ConcatState.rank, Drainer.rank, hpc] at this ⊢
          omega
        · cases h
    next => cases h
  next item hpc =>
    split at h
    · cases h
      have := hrank { d with pc := DrainerPc.exit }
      simp only [ConcatState.rank, Drainer.rank, hpc] at this ⊢
      omega
    · cases h
      have := hrank { d with pc := DrainerPc.recv }
      simp only [ConcatState.rank, Drainer.rank, hpc] at this ⊢
      omega
  next hpc =>
    cases h
    have := hrank { d with pc := DrainerPc.exit }
    simp only [ConcatState.rank, Drainer.rank, hpc] at this ⊢
    omega
  next hpc => cases h

theorem concatStep_rank {α : Type} (st st' : ConcatState α) (a : ConcatAction)
    (h : concatStep st a = some st') : st'.rank < st.rank := by
  cases a with
  | drainer i =>
    simp only [concatStep] at h
    split at h
    next d hd => exact drainerStep_rank st st' i d hd h
    next => cases h
  | closer =>
    simp only [concatStep, closerStep] at h
    split at h
    next hc =>
      split at h
      · cases h; simp [ConcatState.rank, hc, CloserPc.rank]
      · cases h
    next hc => cases h; simp [ConcatState.rank, hc, CloserPc.rank]
    next => cases h

/-- An execution of `Concat` takes at most `rank` steps. -/
theorem concatRun_length {α : Type} (sched : List ConcatAction) (st st' : ConcatState α)
    (h : concatRun st sched = some st') : st'.rank + sched.length ≤ st.rank := by
  induction sched generalizing st with
  | nil =>
    simp only [concatRun, Option.some.injEq] at h
    simp [h]
  | cons a sched ih =>
    simp only [concatRun] at h
    split at h
    next st1 h1 =>
      have h2 := ih st1 h
      have h3 := concatStep_rank st st1 a h1
      simp only [List.length_cons]
      omega
    next => cases h

/-- No deadlock: while every channel read is closed behind its values and `source` is not
closed yet, some goroutine can take a step. -/
theorem concat_progress {α : Type} (st0 st : ConcatState α) (hinv : ConcatInv st0 st)
    (hall : ∀ e ∈ st0.chans, e.2.closed = true) (hopen : st.closed = false) :
    ∃ a st', concatStep st a = some st' := by
  by_cases hex : ∀ d ∈ st.drainers, d.pc = DrainerPc.exit
  · have hsum : (st.drainers.map Drainer.active).sum = 0 := by
      have : ∀ l : List (Drainer α), (∀ d ∈ l, d.pc = DrainerPc.exit) →
          (l.map Drainer.active).sum = 0 := by
        intro l
        induction l with
        | nil => intro _; rfl
        | cons d l ih =>
          intro hl
          simp [Drainer.active, hl d (List.mem_cons_self _ _),
            ih (fun v hv => hl v (List.mem_cons_of_mem _ hv))]
      exact this _ hex
    refine ⟨ConcatAction.closer, Option.isSome_iff_exists.mp ?_⟩
    cases hc : st.closer with
    | wait => simp [concatStep, closerStep, hc, hinv.wg_eq, hsum]
    | close => simp [concatStep, closerStep, hc]
    | exit =>
      have := hinv.closed_iff.mpr hc
      rw [hopen] at this
      cases this
  · push_neg at hex
    obtain ⟨d, hd, hpc⟩ := hex
    obtain ⟨i, hi, hget⟩ := List.mem_iff_getElem.mp hd
    have hget' : st.drainers[i]? = some d := by
      rw [List.getElem?_eq_some]; exact ⟨hi, hget⟩
    refine ⟨ConcatAction.drainer i, Option.isSome_iff_exists.mp ?_⟩
    simp only [concatStep, hget', drainerStep]
    cases hp : d.pc with
    | recv =>
      obtain ⟨c, hc⟩ := chanAt_of_key st.chans d.chan
        (hinv.known _ (List.mem_map_of_mem Drainer.chan hd))
      obtain ⟨k1, k2, hk, -⟩ := chanAt_split st.chans d.chan c hc
      have hcc : c.closed = true :=
        hinv.still_closed hall (d.chan, c) (by rw [hk]; simp)
      cases hitems : c.items with
      | nil => simp [hc, hitems, hcc]
      | cons x rest => simp [hc, hitems]
    | send item =>
      simp [hopen]
    | done => simp
    | exit => exact absurd hp hpc

theorem concat_completes {α : Type} (st0 : ConcatState α)
    (hall : ∀ e ∈ st0.chans, e.2.closed = true) (n : Nat) :
    ∀ st : ConcatState α, ConcatInv st0 st → st.rank ≤ n →
      ∃ sched st', concatRun st sched = some st' ∧ st'.closed = true := by
  induction n with
  | zero =>
    intro st hinv hr
    cases hcl : st.closed with
    | true => exact ⟨[], st, rfl, hcl⟩
    | false =>
      obtain ⟨a, st1, h1⟩ := concat_progress st0 st hinv hall hcl
      have := concatStep_rank st st1 a h1
      omega
  | succ n ih =>
    intro st hinv hr
    cases hcl : st.closed with
    | true => exact ⟨[], st, rfl, hcl⟩
    | false =>
      obtain ⟨a, st1, h1⟩ := concat_progress st0 st hinv hall hcl
      have hlt := concatStep_rank st st1 a h1
      obtain ⟨sched, st2, h2, hf2⟩ :=
        ih st1 (concatInv_step st0 st st1 a hinv h1) (by omega)
      exact ⟨a :: sched, st2, by simp [concatRun, h1, h2], hf2⟩

/-- Once `source` is closed every drainer has ended, every channel read is empty and closed,
and the reader has received, as a multiset, what the channels had to deliver. -/
theorem concatInv_closed {α : Type} (st0 st : ConcatState α) (hinv : ConcatInv st0 st)
    (hclosed : st.closed = true) :
    (∀ d ∈ st.drainers, d.pc = DrainerPc.exit) ∧
      (∀ e ∈ st.chans, e.2.items = [] ∧ e.2.closed = true) ∧
      st.out.Perm (chanItems st0.chans) := by
  have hex := hinv.closed_iff.mp hclosed
  have hq := hinv.quiet (by rw [hex]; decide)
  have hexit := drainer_exit_of_sum_zero _ hq
  have hempty : ∀ e ∈ st.chans, e.2.items = [] ∧ e.2.closed = true := by
    intro e he
    obtain ⟨d, hd, hde⟩ := List.mem_map.mp (hinv.covered e.1 (List.mem_map_of_mem Prod.fst he))
    exact hinv.drained d hd (Or.inr (hexit d hd)) e he hde.symm
  refine ⟨hexit, hempty, ?_⟩
  have hit := hinv.items
  have h1 : st.drainers.flatMap Drainer.held = [] := by
    rw [List.flatMap_eq_nil_iff]
    intro d hd
    simp [Drainer.held, hexit d hd]
  have h2 : chanItems st.chans = [] := by
    unfold chanItems
    rw [List.flatMap_eq_nil_iff]
    intro e he
    exact (hempty e he).1
  rw [h1, h2] at hit
  simpa using hit

theorem mkChans_mem {α : Type} (l : List (Stream α)) (e : Nat × Chan α)
    (he : e ∈ mkChans l) : ∃ t ∈ l, e = (t.chan, t.source) := by
  induction l with
  | nil => cases he
  | cons t l ih =>
    simp only [mkChans, List.mem_cons] at he
    rcases he with rfl | he
    · exact ⟨t, List.mem_cons_self _ _, rfl⟩
    · obtain ⟨u, hu, rfl⟩ := ih (List.mem_filter.mp he).1
      exact ⟨u, List.mem_cons_of_mem _ hu, rfl⟩

/-- Streams over pairwise distinct channels: what the channels deliver is, as a multiset,
what the streams deliver, and its length is the sum of their lengths. -/
theorem chanItems_of_nodup {α : Type} (a : Stream α) (others : List (Stream α))
    (h : ((a :: others).map Stream.chan).Nodup) :
    (chanItems (mkChans (others ++ [a]))).Perm
        ((a :: others).flatMap (fun t => t.source.items)) ∧
      (chanItems (mkChans (others ++ [a]))).length =
        ((a :: others).map (fun t => t.source.items.length)).sum := by
  have hperm : (others ++ [a]).Perm (a :: others) := by
    simp
  have hnd : ((others ++ [a]).map Stream.chan).Nodup :=
    (List.Perm.nodup_iff (hperm.map Stream.chan)).mpr h
  have hitems : chanItems (mkChans (others ++ [a])) =
      (others ++ [a]).flatMap (fun t => t.source.items) := by
    rw [mkChans_of_nodup _ hnd]
    simp only [chanItems, List.flatMap_map]
  have hp : (chanItems (mkChans (others ++ [a]))).Perm
      ((a :: others).flatMap (fun t => t.source.items)) := by
    rw [hitems]
    exact hperm.flatMap_right _
  refine ⟨hp, ?_⟩
  rw [hp.length_eq, List.length_flatMap]
  rfl

/-- C7, as stated, fails: in `Concat(a, b, b)` neither of the others is `a` and the three
input streams have 1 + 1 + 1 = 3 items, but the two drainers started for `b` range over the
one channel of `b`, which delivers its item once: every execution that closes the output has
delivered 2 items, and some execution closes it. -/
theorem Concat_stream_twice_delivers_once :
    (∀ other ∈ [Range (Of [2]) 2 2, Range (Of [2]) 2 2],
      other.ptr ≠ (Range (Of [1]) 1 1).ptr) ∧
    ((Range (Of [1]) 1 1 :: [Range (Of [2]) 2 2, Range (Of [2]) 2 2]).map
      (fun t => t.source.items.length)).sum = 3 ∧
    ∃ st0, Concat (Range (Of [1]) 1 1) [Range (Of [2]) 2 2, Range (Of [2]) 2 2] =
        Outcome.ret st0 ∧
      (∀ sched st, concatRun st0 sched = some st → st.closed = true → st.out.length = 2) ∧
      concatRun st0
        [.drainer 0, .drainer 0, .drainer 0, .drainer 0, .drainer 1, .drainer 1,
         .drainer 2, .drainer 2, .drainer 2, .drainer 2, .closer, .closer] =
        some
          { chans := [(2, { cap := 1, items := [], closed := true }),
              (1, { cap := 1, items := [], closed := true })]
            drainers := [{ chan := 2, pc := DrainerPc.exit }, { chan := 2, pc := DrainerPc.exit },
              { chan := 1, pc := DrainerPc.exit }]
            wg := 0, closer := CloserPc.exit, closed := true, panicked := false
            out := [2, 1] } := by
  refine ⟨by decide, rfl, _, rfl, fun sched st hrun hclosed => ?_, by decide⟩
  have hinv := concatInv_run _ sched _ st
    (concatInv_init (Range (Of [1]) 1 1) [Range (Of [2]) 2 2, Range (Of [2]) 2 2] _ rfl) hrun
  have hperm := (concatInv_closed _ st hinv hclosed).2.2
  rw [hperm.length_eq]
  rfl

/-- C7, amended: for every stream `a` and every list `others` none of which is `a`, `Concat`
returns, and in every state of the execution that follows no drainer has sent on a closed
channel and no value is lost or duplicated: what the reader has received, what the drainers
hold and what the channels have still to deliver is, as a multiset, what the channels of the
input streams had to deliver.  The output is closed only after every input channel is empty and
closed, and then the reader has received that multiset; when the input streams are over
pairwise distinct channels it is the union of the items of `a` and of `others`, and its
count is the sum of their counts.  When every input is closed behind its items a goroutine
can always take a step until the output is closed, an execution has at most `rank` steps,
and some execution closes the output. -/
theorem Concat_yields_union {α : Type} (a : Stream α) (others : List (Stream α))
    (hne : ∀ other ∈ others, other.ptr ≠ a.ptr) :
    ∃ st0, Concat a others = Outcome.ret st0 ∧
      (∀ sched st, concatRun st0 sched = some st →
        st.panicked = false ∧
        (st.out ++ st.drainers.flatMap Drainer.held ++ chanItems st.chans : Multiset α) =
          (chanItems (mkChans (others ++ [a])) : Multiset α) ∧
        (st.closed = true →
          (∀ e ∈ st.chans, e.2.items = [] ∧ e.2.closed = true) ∧
          (st.out : Multiset α) = (chanItems (mkChans (others ++ [a])) : Multiset α) ∧
          (((a :: others).map Stream.chan).Nodup →
            (st.out : Multiset α) =
              ((a :: others).flatMap (fun t => t.source.items) : Multiset α) ∧
            st.out.length = ((a :: others).map (fun t => t.source.items.length)).sum)) ∧
        ((∀ t ∈ a :: others, t.source.closed = true) → st.closed = false →
          ∃ act st', concatStep st act = some st') ∧
        sched.length ≤ st0.rank) ∧
      ((∀ t ∈ a :: others, t.source.closed = true) →
        ∃ sched st, concatRun st0 sched = some st ∧ st.closed = true) := by
  have hany : others.any (fun other => a.ptr = other.ptr) = false := by
    rw [List.any_eq_false]
    intro o ho
    simpa using fun h => hne o ho h.symm
  have hret : ∃ st0, Concat a others = Outcome.ret st0 ∧
      st0.chans = mkChans (others ++ [a]) := by
    simp only [Concat, Stream.Concat, hany]
    exact ⟨_, rfl, rfl⟩
  obtain ⟨st0, h0, hch⟩ := hret
  have hinit := concatInv_init a others st0 h0
  have hall : (∀ t ∈ a :: others, t.source.closed = true) →
      ∀ e ∈ st0.chans, e.2.closed = true := by
    intro hcl e he
    rw [hch] at he
    obtain ⟨t, ht, rfl⟩ := mkChans_mem _ e he
    exact hcl t (by
      rcases List.mem_append.mp ht with h | h
      · exact List.mem_cons_of_mem _ h
      · rw [List.mem_singleton.mp h]; exact List.mem_cons_self _ _)
  refine ⟨st0, h0, fun sched st hrun => ?_, fun hcl => ?_⟩
  · have hinv := concatInv_run st0 sched st0 st hinit hrun
    refine ⟨hinv.sound, ?_, fun hclosed => ?_, fun hcl hopen => ?_, ?_⟩
    · rw [← hch]
      exact Multiset.coe_eq_coe.mpr hinv.items
    · obtain ⟨-, hempty, hperm⟩ := concatInv_closed st0 st hinv hclosed
      rw [hch] at hperm
      refine ⟨hempty, Multiset.coe_eq_coe.mpr hperm, fun hnd => ?_⟩
      obtain ⟨hp, hlen⟩ := chanItems_of_nodup a others hnd
      exact ⟨Multiset.coe_eq_coe.mpr (hperm.trans hp), by rw [hperm.length_eq, hlen]⟩
    · exact concat_progress st0 st hinv (hall hcl) hopen
    · have := concatRun_length sched st0 st hrun
      omega
  · exact concat_completes st0 (hall hcl) _ st0 hinit (le_refl _)

theorem Concat_yields_union_witness :
    (∀ other ∈ [Range (Of [4, 5, 6]) 2 2], other.ptr ≠ (Range (Of [1, 2, 3]) 1 1).ptr) ∧
    ∃ st0, Concat (Range (Of [1, 2, 3]) 1 1) [Range (Of [4, 5, 6]) 2 2] = Outcome.ret st0 ∧
      ∃ sched st, concatRun st0 sched = some st ∧ st.closed = true ∧
        (st.out : Multiset Nat) = (([1, 2, 3, 4, 5, 6] : List Nat) : Multiset Nat) ∧
        st.out.length = 6 :=
  have hne : ∀ other ∈ [Range (Of [4, 5, 6]) 2 2],
      other.ptr ≠ (Range (Of [1, 2, 3]) 1 1).ptr := by decide
  ⟨hne,
    match Concat_yields_union (Range (Of [1, 2, 3]) 1 1) [Range (Of [4, 5, 6]) 2 2] hne with
    | ⟨st0, h0, hsafe, hlive⟩ =>
      ⟨st0, h0,
        match hlive (by decide) with
        | ⟨sched, st, hrun, hclosed⟩ =>
          ⟨sched, st, hrun, hclosed,
            ((hsafe sched st hrun).2.2.1 hclosed).2.2 (by decide)⟩⟩⟩

/-- C8: for every stream `a` and every list `others` that holds a stream reference-identical
to `a`, `a.Concat(others...)`, and so `Concat(a, others...)`, panics instead of returning a
stream; in particular `a.Concat(a)` panics. -/
theorem Concat_self_panics {α : Type} (a : Stream α) (others : List (Stream α))
    (hself : ∃ other ∈ others, other.ptr = a.ptr) :
    a.Concat others = Outcome.panic "other same" ∧
      Concat a others = Outcome.panic "other same" ∧
      a.Concat [a] = Outcome.panic "other same" := by
  obtain ⟨o, ho, hptr⟩ := hself
  have hany : others.any (fun other => a.ptr = other.ptr) = true := by
    rw [List.any_eq_true]
    exact ⟨o, ho, by simpa using hptr.symm⟩
  refine ⟨?_, ?_, ?_⟩
  · simp only [Stream.Concat, hany, if_true]
  · simp only [Concat, Stream.Concat, hany, if_true]
  · simp [Stream.Concat]

theorem Concat_self_panics_witness :
    (∃ other ∈ [Range (Of [4, 5]) 2 2, Range (Of [1, 2, 3]) 1 1],
      other.ptr = (Range (Of [1, 2, 3]) 1 1).ptr) ∧
    (Range (Of [1, 2, 3]) 1 1).Concat [Range (Of [4, 5]) 2 2, Range (Of [1, 2, 3]) 1 1] =
      Outcome.panic "other same" :=
  have hself : ∃ other ∈ [Range (Of [4, 5]) 2 2, Range (Of [1, 2, 3]) 1 1],
      other.ptr = (Range (Of [1, 2, 3]) 1 1).ptr := ⟨_, by simp, rfl⟩
  ⟨hself, (Concat_self_panics (Range (Of [1, 2, 3]) 1 1)
    [Range (Of [4, 5]) 2 2, Range (Of [1, 2, 3]) 1 1] hself).1⟩

/-! ## Empty -/

/-- C10: the channel of `Empty()` has capacity 0 and holds nothing, but it is not closed:
`Count` and `Foreach` on it wait for a value forever instead of returning. -/
theorem Empty_never_closed {α σ : Type} (f : α → σ → σ) (st : σ) :
    (Empty : Stream α).source.cap = 0 ∧ (Empty : Stream α).source.items = [] ∧
      (Empty : Stream α).source.closed = false ∧
      (Empty : Stream α).Count = Outcome.block ∧
      (Empty : Stream α).Foreach f st = Outcome.block :=
  ⟨rfl, rfl, rfl, rfl, rfl⟩

/-! ## loadOptions -/

theorem foldl_optionCalls (calls : List OptionCall) (op : Options) :
    (List.foldl (fun (op : Options) (option : OptionFunc) => option op) op
      (calls.map OptionCall.option)).workSize =
      match lastPoolSize calls with
      | some size => size
      | none => op.workSize := by
  induction calls generalizing op with
  | nil => rfl
  | cons c rest ih =>
    cases c with
    | WithOption options =>
      simp only [List.map_cons, List.foldl_cons, OptionCall.option, WithOption, lastPoolSize]
      exact ih op
    | WithPoolSize size =>
      simp only [List.map_cons, List.foldl_cons, OptionCall.option, WithPoolSize,
        lastPoolSize]
      rw [ih]
      cases lastPoolSize rest <;> rfl

/-- C11: for every list of options built by `WithOption` and `WithPoolSize`, `loadOptions`
returns the default 10000 when no pool size was set or the last one set is `<= 0`, and the
last size given to `WithPoolSize` otherwise; whatever the options do, the returned `workSize`
is at least 1. -/
theorem loadOptions_workSize (calls : List OptionCall) (opts : List OptionFunc) :
    (loadOptions (calls.map OptionCall.option)).workSize =
      (match lastPoolSize calls with
        | none => 10000
        | some size => if size ≤ 0 then 10000 else size) ∧
    1 ≤ (loadOptions (calls.map OptionCall.option)).workSize ∧
    1 ≤ (loadOptions opts).workSize := by
  refine ⟨?_, ?_, ?_⟩
  · have h := foldl_optionCalls calls { workSize := 0 }
    simp only [loadOptions]
    cases hl : lastPoolSize calls with
    | none =>
      rw [hl] at h
      simp only [h, le_refl, if_true, DefaultAntsPoolSize]
    | some size =>
      rw [hl] at h
      simp only [h]
      by_cases hs : size ≤ 0
      · simp only [hs, if_true, DefaultAntsPoolSize]
      · simp only [hs, if_false, h]
  · have := loadOptions_pos (calls.map OptionCall.option)
    omega
  · have := loadOptions_pos opts
    omega

/-! ## AnyMach, AllMach, findFirst -/

theorem anyMach_foldl {α : Type} (f : α → Bool) (xs : List α) (b : Bool) :
    xs.foldl (fun isFind item => if f item then true else isFind) b = (b || xs.any f) := by
  induction xs generalizing b with
  | nil => simp
  | cons x xs ih =>
    simp only [List.foldl_cons, ih, List.any_cons]
    cases f x <;> cases b <;> simp

theorem allMachLoop_closed {α : Type} (f : α → Bool) (xs : List α) :
    allMachLoop f true xs = Outcome.ret (xs.all f) := by
  induction xs with
  | nil => rfl
  | cons x xs ih =>
    simp only [allMachLoop, ih, List.all_cons]
    cases f x <;> simp

/-- C17: on a source that delivers a finite sequence `xs` and is then closed, `AnyMach(f)`
returns, and it returns true if and only if some item of `xs` satisfies `f`; `AllMach(f)`
returns, and it returns true if and only if every item of `xs` satisfies `f`. -/
theorem AnyMach_AllMach_iff {α : Type} (s : Stream α) (f : α → Bool)
    (hclosed : s.source.closed = true) :
    s.AnyMach f = Outcome.ret (s.source.items.any f) ∧
    (s.AnyMach f = Outcome.ret true ↔ ∃ x ∈ s.source.items, f x = true) ∧
    s.AllMach f = Outcome.ret (s.source.items.all f) ∧
    (s.AllMach f = Outcome.ret true ↔ ∀ x ∈ s.source.items, f x = true) := by
  have hany : s.AnyMach f = Outcome.ret (s.source.items.any f) := by
    simp only [Stream.AnyMach, hclosed, if_true, anyMach_foldl, Bool.false_or]
  have hall : s.AllMach f = Outcome.ret (s.source.items.all f) := by
    simp only [Stream.AllMach, hclosed, allMachLoop_closed]
  refine ⟨hany, ?_, hall, ?_⟩
  · rw [hany, Outcome.ret.injEq, List.any_eq_true]
  · rw [hall, Outcome.ret.injEq, List.all_eq_true]

theorem AnyMach_AllMach_iff_witness :
    (Range (Of [1, 2, 3]) 0 0).source.closed = true ∧
    (Range (Of [1, 2, 3]) 0 0).AnyMach (fun x => decide (x = 2)) = Outcome.ret true ∧
    (Range (Of [1, 2, 3]) 0 0).AllMach (fun x => decide (x = 1)) = Outcome.ret false ∧
    (Range (Of ([] : List Nat)) 0 0).AllMach (fun x => decide (x = 1)) = Outcome.ret true :=
  ⟨rfl,
    (AnyMach_AllMach_iff (Range (Of [1, 2, 3]) 0 0) (fun x => decide (x = 2)) rfl).1,
    (AnyMach_AllMach_iff (Range (Of [1, 2, 3]) 0 0) (fun x => decide (x = 1)) rfl).2.2.1,
    (AnyMach_AllMach_iff (Range (Of ([] : List Nat)) 0 0) (fun x => decide (x = 1))
      rfl).2.2.1⟩

/-- C20: on the source `1, 2`, `findFirst` returns the last item, 2, not the first; and on a
source whose only item is `nil` it reports "no element" although the source yields an
item. -/
theorem findFirst_returns_last :
    (Range (Of [some 1, some 2]) 0 0).findFirst = Outcome.ret (some 2, none) ∧
    (some (some 2) : Option (Option Nat)) ≠ [some 1, some 2].head? ∧
    (Range (Of [(none : Option Nat)]) 0 0).findFirst =
      Outcome.ret (none, some "no element") := by
  decide

/-- C18: `Concat(Empty(), Empty())` panics: `Empty()` returns the same pointer both times,
and `Concat` panics at the first of `others` that is its receiver. -/
theorem Concat_Empty_Empty_panics {α : Type} :
    Concat (Empty : Stream α) [Empty] = Outcome.panic "other same" := by
  simp [Concat, Stream.Concat, Empty, empty]

/-! ## Distinct -/

theorem firstOfKeyAfter_cons {α κ : Type} [DecidableEq κ] (f : α → κ) (before : List α)
    (x : α) (rest : List α) :
    firstOfKeyAfter f before (x :: rest) =
      (if before.all (fun y => decide (f y ≠ f x)) then [x] else []) ++
        firstOfKeyAfter f (before ++ [x]) rest := by
  unfold firstOfKeyAfter
  rw [List.length_cons, List.range_succ_eq_map, List.filterMap_cons, List.filterMap_map]
  have htail : ∀ i, ((fun i =>
      match (x :: rest)[i]? with
      | some z =>
        if (before ++ (x :: rest).take i).all (fun y => decide (f y ≠ f z)) then some z
        else none
      | none => none) ∘ Nat.succ) i =
      (fun i =>
        match rest[i]? with
        | some z =>
          if (before ++ [x] ++ rest.take i).all (fun y => decide (f y ≠ f z)) then some z
          else none
        | none => none) i := by
    intro i
    simp only [Function.comp, Nat.succ_eq_add_one, List.getElem?_cons_succ, List.take_succ_cons,
      List.append_assoc, List.singleton_append]
  rw [funext htail]
  simp only [List.getElem?_cons_zero, List.take_zero, List.append_nil]
  by_cases hnew : before.all (fun y => decide (f y ≠ f x)) = true
  · simp only [hnew, if_true, List.singleton_append]
  · simp only [hnew, if_false, List.nil_append, Bool.false_eq_true]

theorem firstOfKeyAfter_nil {α κ : Type} [DecidableEq κ] (f : α → κ) (before : List α) :
    firstOfKeyAfter f before [] = [] := rfl

/-- The loop of `Distinct`, started with the keys of `before` in `unique`, sends the items
whose key is new. -/
theorem distinctLoop_spec {α κ : Type} [DecidableEq κ] (f : α → κ) (xs before : List α)
    (unique : List κ) (hu : ∀ k, k ∈ unique ↔ k ∈ before.map f) :
    (rangeLoop (distinctBody f) unique xs).2 =
      (firstOfKeyAfter f before xs).map ChanOp.send := by
  induction xs generalizing before unique with
  | nil => rfl
  | cons x rest ih =>
    have hall : (before.all (fun y => decide (f y ≠ f x)) = true) ↔ f x ∉ unique := by
      rw [hu, List.all_eq_true]
      simp only [decide_eq_true_eq, List.mem_map, not_exists, not_and]
    rw [firstOfKeyAfter_cons]
    simp only [rangeLoop, distinctBody]
    by_cases hk : f x ∈ unique
    · have hnot : ¬ (before.all (fun y => decide (f y ≠ f x)) = true) := fun h => hall.mp h hk
      rw [if_pos hk, if_neg hnot]
      simp only [List.nil_append]
      refine ih (before ++ [x]) unique (fun k => ?_)
      rw [List.map_append, List.mem_append, ← hu]
      constructor
      · exact Or.inl
      · rintro (h | h)
        · exact h
        · simp only [List.map_cons, List.map_nil, List.mem_singleton] at h
          exact h ▸ hk
    · rw [if_neg hk, if_pos (hall.mpr hk)]
      simp only [List.cons_append, List.nil_append, List.map_cons, List.singleton_append]
      congr 1
      refine ih (before ++ [x]) (f x :: unique) (fun k => ?_)
      rw [List.map_append, List.mem_append, ← hu]
      simp only [List.mem_cons, List.map_cons, List.map_nil, List.mem_singleton]
      tauto

theorem firstOfKeyAfter_sublist {α κ : Type} [DecidableEq κ] (f : α → κ)
    (xs before : List α) : (firstOfKeyAfter f before xs).Sublist xs := by
  induction xs generalizing before with
  | nil => exact List.Sublist.refl _
  | cons x rest ih =>
    rw [firstOfKeyAfter_cons]
    split
    · exact (ih (before ++ [x])).cons₂ x
    · exact (ih (before ++ [x])).cons x

theorem firstOfKeyAfter_new {α κ : Type} [DecidableEq κ] (f : α → κ) (xs before : List α) :
    ∀ x ∈ firstOfKeyAfter f before xs, f x ∉ before.map f := by
  induction xs generalizing before with
  | nil => intro x hx; cases hx
  | cons y rest ih =>
    intro x hx
    rw [firstOfKeyAfter_cons, List.mem_append] at hx
    rcases hx with hx | hx
    · split at hx
      next hall =>
        rw [List.mem_singleton] at hx
        subst hx
        rw [List.all_eq_true] at hall
        simp only [List.mem_map, not_exists, not_and]
        intro z hz
        simpa using hall z hz
      next => cases hx
    · have := ih (before ++ [y]) x hx
      intro hmem
      exact this (by rw [List.map_append]; exact List.mem_append_left _ hmem)

theorem firstOfKeyAfter_nodup {α κ : Type} [DecidableEq κ] (f : α → κ) (xs before : List α) :
    ((firstOfKeyAfter f before xs).map f).Nodup := by
  induction xs generalizing before with
  | nil => exact List.nodup_nil
  | cons y rest ih =>
    rw [firstOfKeyAfter_cons]
    split
    · simp only [List.singleton_append, List.map_cons, List.nodup_cons]
      refine ⟨?_, ih _⟩
      intro hmem
      obtain ⟨z, hz, hzy⟩ := List.mem_map.mp hmem
      exact firstOfKeyAfter_new f rest (before ++ [y]) z hz (by simp [hzy])
    · simpa using ih (before ++ [y])

theorem firstOfKeyAfter_covers {α κ : Type} [DecidableEq κ] (f : α → κ)
    (xs before : List α) :
    ∀ x ∈ xs, f x ∈ before.map f ∨ f x ∈ (firstOfKeyAfter f before xs).map f := by
  induction xs generalizing before with
  | nil => intro x hx; cases hx
  | cons y rest ih =>
    intro x hx
    rw [firstOfKeyAfter_cons]
    by_cases hnew : before.all (fun z => decide (f z ≠ f y)) = true
    · rw [if_pos hnew]
      rcases List.mem_cons.mp hx with rfl | hx
      · exact Or.inr (by simp)
      · rcases ih (before ++ [y]) x hx with h | h
        · rw [List.map_append, List.mem_append] at h
          rcases h with h | h
          · exact Or.inl h
          · exact Or.inr (by simpa using Or.inl (by simpa using h))
        · exact Or.inr (by simp [h])
    · rw [if_neg hnew]
      have hy : f y ∈ before.map f := by
        rw [List.all_eq_true] at hnew
        push_neg at hnew
        obtain ⟨z, hz, hzy⟩ := hnew
        exact List.mem_map.mpr ⟨z, hz, by simpa using hzy⟩
      rcases List.mem_cons.mp hx with rfl | hx
      · exact Or.inl hy
      · rcases ih (before ++ [y]) x hx with h | h
        · rw [List.map_append, List.mem_append] at h
          rcases h with h | h
          · exact Or.inl h
          · simp only [List.map_cons, List.map_nil, List.mem_singleton] at h
            exact Or.inl (h ▸ hy)
        · exact Or.inr (by simpa using h)

/-- C13: on a source that delivers a finite sequence `xs` and is then closed, `Distinct(f)`
yields exactly the items of `xs` whose key `f(x)` differs from the key of every earlier item
of `xs`, in source order, and closes; the keys of the yielded items are pairwise distinct and
every key that occurs in `xs` is the key of a yielded item. -/
theorem Distinct_yields_first_of_key {α κ : Type} [DecidableEq κ] (s : Stream α) (f : α → κ)
    (hclosed : s.source.closed = true) :
    s.Distinct f = Outcome.ret
      { cap := 0, items := firstOfKey f s.source.items, closed := true } ∧
    (firstOfKey f s.source.items).Sublist s.source.items ∧
    ((firstOfKey f s.source.items).map f).Nodup ∧
    ∀ x ∈ s.source.items, f x ∈ (firstOfKey f s.source.items).map f := by
  refine ⟨?_, firstOfKeyAfter_sublist f _ [], firstOfKeyAfter_nodup f _ [], fun x hx => ?_⟩
  · have hloop := distinctLoop_spec f s.source.items [] [] (fun k => by simp)
    simp only [Stream.Distinct, distinctProducer, producer, hloop, hclosed, if_true,
      Chan.ofTrace, firstOfKey, sent_map_send_close, closes_map_send_close]
  · rcases firstOfKeyAfter_covers f s.source.items [] x hx with h | h
    · simp at h
    · exact h

theorem Distinct_yields_first_of_key_witness :
    (Range (Of [1, 2, 3, 4, 4, 22, 2, 1, 4]) 0 0).source.closed = true ∧
    firstOfKey (fun x : Nat => x) [1, 2, 3, 4, 4, 22, 2, 1, 4] = [1, 2, 3, 4, 22] ∧
    (Range (Of [1, 2, 3, 4, 4, 22, 2, 1, 4]) 0 0).Distinct (fun x => x) = Outcome.ret
      { cap := 0
        items := firstOfKey (fun x : Nat => x) [1, 2, 3, 4, 4, 22, 2, 1, 4]
        closed := true } :=
  ⟨rfl, by decide,
    (Distinct_yields_first_of_key (Range (Of [1, 2, 3, 4, 4, 22, 2, 1, 4]) 0 0)
      (fun x => x) rfl).1⟩

/-! ## Split, SplitSteam -/

theorem sent_map {α β : Type} (g : α → β) (t : List (ChanOp α)) :
    sent (t.map (ChanOp.map g)) = (sent t).map g ∧
      closes (t.map (ChanOp.map g)) = closes t := by
  induction t with
  | nil => exact ⟨rfl, rfl⟩
  | cons op t ih =>
    cases op with
    | send x => simp [sent, closes, ChanOp.map, ih]
    | close => simp [sent, closes, ChanOp.map]

/-- The goroutine of `SplitSteam` does what the goroutine of `Split` does, with a sub-stream
in the place of every chunk. -/
theorem splitSteamLoop_eq {α : Type} (n : Int) (xs chunk : List α) :
    (rangeLoop (splitSteamBody n) chunk xs).2 ++
        splitSteamAfter n (rangeLoop (splitSteamBody n) chunk xs).1 =
      ((rangeLoop (splitBody n) chunk xs).2 ++
        splitAfter (rangeLoop (splitBody n) chunk xs).1).map (ChanOp.map (subStream n)) := by
  induction xs generalizing chunk with
  | nil =>
    simp only [rangeLoop, List.nil_append, splitSteamAfter, splitAfter]
    cases chunk <;> simp [ChanOp.map, subStream]
  | cons x rest ih =>
    simp only [rangeLoop, splitSteamBody, splitBody]
    by_cases hn : ((chunk ++ [x]).length : Int) = n
    · simp only [hn, if_true, List.append_assoc, List.map_append, List.map_cons, List.map_nil,
        ChanOp.map, subStream, List.singleton_append, List.cons.injEq, true_and]
      have := ih []
      simpa [List.map_append] using this
    · simp only [hn, if_false, List.nil_append]
      exact ih (chunk ++ [x])

/-- The chunks the goroutine of `Split` sends when it starts with `chunk` in hand, shorter
than `n`, and the source delivers `xs` and is closed: in order they make up `chunk ++ xs`,
each has between 1 and `n` items, and each but the last has `n`. -/
theorem splitLoop_spec {α : Type} (n : Int) (xs chunk : List α)
    (hchunk : (chunk.length : Int) < n) :
    closes ((rangeLoop (splitBody n) chunk xs).2 ++
        splitAfter (rangeLoop (splitBody n) chunk xs).1) = true ∧
      (sent ((rangeLoop (splitBody n) chunk xs).2 ++
        splitAfter (rangeLoop (splitBody n) chunk xs).1)).flatten = chunk ++ xs ∧
      (∀ c ∈ sent ((rangeLoop (splitBody n) chunk xs).2 ++
        splitAfter (rangeLoop (splitBody n) chunk xs).1),
          1 ≤ c.length ∧ (c.length : Int) ≤ n) ∧
      (∀ c ∈ (sent ((rangeLoop (splitBody n) chunk xs).2 ++
        splitAfter (rangeLoop (splitBody n) chunk xs).1)).dropLast,
          (c.length : Int) = n) := by
  induction xs generalizing chunk with
  | nil =>
    cases chunk with
    | nil => simp [rangeLoop, splitAfter, sent, closes]
    | cons a l =>
      simp only [rangeLoop, splitAfter, List.nil_append, List.isEmpty_cons, Bool.false_eq_true,
        if_false, List.singleton_append, sent, closes, List.flatten_cons, List.flatten_nil,
        List.append_nil, List.mem_singleton, List.dropLast_single, List.not_mem_nil,
        true_and]
      refine ⟨?_, ?_⟩
      · rintro c rfl
        simp only [List.length_cons] at hchunk ⊢
        omega
      · intro c hc
        exact absurd hc id
  | cons x rest ih =>
    simp only [rangeLoop, splitBody]
    by_cases hn : ((chunk ++ [x]).length : Int) = n
    · obtain ⟨h1, h2, h3, h4⟩ := ih [] (by simp only [List.length_nil]; omega)
      simp only [hn, if_true, List.singleton_append, List.cons_append, sent, closes, h1,
        List.flatten_cons, h2, true_and, List.mem_cons, List.nil_append, List.append_assoc]
      refine ⟨?_, ?_⟩
      · rintro c (rfl | hc)
        · simp only [List.length_append, List.length_singleton] at hn ⊢
          omega
        · exact h3 c hc
      · intro c hc
        cases hs : sent ((rangeLoop (splitBody n) [] rest).2 ++
            splitAfter (rangeLoop (splitBody n) [] rest).1) with
        | nil => rw [hs] at hc; simp at hc
        | cons d l =>
          rw [hs, List.dropLast_cons₂, List.mem_cons] at hc
          rcases hc with rfl | hc
          · exact hn
          · exact h4 c (by rw [hs]; exact hc)
    · simp only [hn, if_false, List.nil_append]
      have hlt : ((chunk ++ [x]).length : Int) < n := by
        simp only [List.length_append, List.length_singleton, Nat.cast_add, Nat.cast_one]
          at hn ⊢
        omega
      obtain ⟨h1, h2, h3, h4⟩ := ih (chunk ++ [x]) hlt
      exact ⟨h1, by rw [h2]; simp, h3, h4⟩

/-- C14, as stated, fails: 1 << 62 is at least 1, and over the closed source 1, 2, 3
`Split(1 << 62)` returns the stream of the one chunk `[1, 2, 3]`, while `SplitSteam(1 << 62)`
panics in `make(chan interface{}, n)` and gives no sub-stream. -/
theorem Split_SplitSteam_differ_out_of_range :
    (1 : Int) ≤ 2 ^ 62 ∧ (Range (Of [1, 2, 3]) 0 0).source.closed = true ∧
    (Range (Of [1, 2, 3]) 0 0).Split (2 ^ 62) =
      Outcome.ret { cap := 0, items := [[1, 2, 3]], closed := true } ∧
    (Range (Of [1, 2, 3]) 0 0).SplitSteam (2 ^ 62) =
      Outcome.panic "makechan: size out of range" ∧
    ¬ ∃ chunks : List (List Nat),
      (Range (Of [1, 2, 3]) 0 0).SplitSteam (2 ^ 62) =
        Outcome.ret { cap := 0, items := chunks.map (subStream (2 ^ 62)), closed := true } := by
  have hpanic : (Range (Of [1, 2, 3]) 0 0).SplitSteam (2 ^ 62) =
      Outcome.panic "makechan: size out of range" := by decide
  refine ⟨by decide, rfl, by decide, hpanic, ?_⟩
  rintro ⟨chunks, h⟩
  rw [hpanic] at h
  cases h

/-- C14, amended: for every `n >= 1` within the limit of `make` and every source that
delivers a finite sequence `xs` and is then closed, `Split(n)` yields chunks and
`SplitSteam(n)` yields, for the same chunks in the same order, closed sub-streams that hold
them: the chunks in order make up `xs`, every chunk but the last has exactly `n` items, every
chunk (so the last) has between 1 and `n` items, and an empty source gives no chunk. -/
theorem Split_SplitSteam_chunks {α : Type} (s : Stream α) (n : Int) (hn : 1 ≤ n)
    (hfit : makechanOutOfRange n = false) (hclosed : s.source.closed = true) :
    ∃ chunks : List (List α),
      s.Split n = Outcome.ret { cap := 0, items := chunks, closed := true } ∧
      s.SplitSteam n =
        Outcome.ret { cap := 0, items := chunks.map (subStream n), closed := true } ∧
      chunks.flatten = s.source.items ∧
      (∀ c ∈ chunks.dropLast, (c.length : Int) = n) ∧
      (∀ c ∈ chunks, 1 ≤ c.length ∧ (c.length : Int) ≤ n) ∧
      (s.source.items = [] → chunks = []) := by
  have hnot : ¬ n < 1 := by omega
  obtain ⟨h1, h2, h3, h4⟩ := splitLoop_spec n s.source.items []
    (by simp only [List.length_nil]; omega)
  have hsteam := splitSteamLoop_eq n s.source.items []
  have hmap := sent_map (subStream n) ((rangeLoop (splitBody n) [] s.source.items).2 ++
    splitAfter (rangeLoop (splitBody n) [] s.source.items).1)
  refine ⟨sent ((rangeLoop (splitBody n) [] s.source.items).2 ++
    splitAfter (rangeLoop (splitBody n) [] s.source.items).1), ?_, ?_, ?_, h4, h3, ?_⟩
  · simp only [Stream.Split, Stream.SplitCall, Call.go, hnot, if_false, splitProducer,
      producer, hclosed, if_true, Chan.ofTrace, h1]
  · simp only [Stream.SplitSteam, Stream.SplitSteamCall, Call.go, hnot, if_false, hfit,
      Bool.false_eq_true, splitSteamProducer, producer, hclosed,
      if_true, Chan.ofTrace, hsteam, hmap.1, hmap.2, h1]
  · simpa using h2
  · intro hnil
    have hflat : (sent ((rangeLoop (splitBody n) [] s.source.items).2 ++
        splitAfter (rangeLoop (splitBody n) [] s.source.items).1)).flatten = [] := by
      rw [h2, List.nil_append]
      exact hnil
    rw [List.flatten_eq_nil_iff] at hflat
    rw [List.eq_nil_iff_forall_not_mem]
    intro c hc
    have hlen := (h3 c hc).1
    rw [hflat c hc] at hlen
    simp at hlen

theorem Split_SplitSteam_chunks_witness :
    (1 : Int) ≤ 3 ∧ makechanOutOfRange 3 = false ∧
    (Range (Of [1, 2, 444, 441, 1]) 0 0).source.closed = true ∧
    ∃ chunks : List (List Nat),
      (Range (Of [1, 2, 444, 441, 1]) 0 0).Split 3 =
        Outcome.ret { cap := 0, items := chunks, closed := true } ∧
      (Range (Of [1, 2, 444, 441, 1]) 0 0).SplitSteam 3 =
        Outcome.ret { cap := 0, items := chunks.map (subStream 3), closed := true } ∧
      chunks.flatten = [1, 2, 444, 441, 1] :=
  ⟨by decide, by decide, rfl,
    match Split_SplitSteam_chunks (Range (Of [1, 2, 444, 441, 1]) 0 0) 3 (by decide)
      (by decide) rfl with
    | ⟨chunks, h1, h2, h3, _⟩ => ⟨chunks, h1, h2, h3⟩⟩


/-! ## Validation of the size arguments -/

/-- C12, as stated, fails: 1 << 62 is not below 1, and `SplitSteam(1 << 62)` panics, in
`make(chan interface{}, n)`, where the claim has it return a stream. -/
theorem SplitSteam_size_out_of_range_panics :
    ¬ ((2 : Int) ^ 62 < 1) ∧
    (Range (Of [7, 8, 9]) 0 0).SplitSteam (2 ^ 62) =
      Outcome.panic "makechan: size out of range" ∧
    ¬ ∃ c, (Range (Of [7, 8, 9]) 0 0).SplitSteam (2 ^ 62) = Outcome.ret c := by
  have hpanic : (Range (Of [7, 8, 9]) 0 0).SplitSteam (2 ^ 62) =
      Outcome.panic "makechan: size out of range" := by decide
  refine ⟨by decide, hpanic, ?_⟩
  rintro ⟨c, h⟩
  rw [hpanic] at h
  cases h

/-- C12, amended: `Split(n)`, `SplitSteam(n)`, `Tail(n)` and `Head(n)` panic for every
`n < 1`, `Skip(size)` and `Limit(size)` panic for every `size < 0`; for every other argument
they return a stream, except that `SplitSteam(n)` panics in `make` for an `n` beyond the
limit of `make`; and a call that panics has started no goroutine, so that no value is
received from the source. -/
theorem size_arguments_validated {α : Type} (s : Stream α) (n size : Int) :
    (n < 1 →
      s.Split n = Outcome.panic "n should be greater than 0" ∧
      s.SplitSteam n = Outcome.panic "n should be greater than 0" ∧
      s.Tail n = Outcome.panic "n should be greater than 0" ∧
      s.Head n = Outcome.panic "n must be greater than 0") ∧
    (1 ≤ n →
      (∃ c, s.Split n = Outcome.ret c) ∧ (∃ c, s.Tail n = Outcome.ret c) ∧
      (∃ c, s.Head n = Outcome.ret c) ∧
      (makechanOutOfRange n = false → ∃ c, s.SplitSteam n = Outcome.ret c) ∧
      (makechanOutOfRange n = true →
        s.SplitSteam n = Outcome.panic "makechan: size out of range")) ∧
    (size < 0 →
      s.Skip size = Outcome.panic "size must be greater than -1" ∧
      s.Limit size = Outcome.panic "size must be greater than -1") ∧
    (0 ≤ size → (∃ c, s.Skip size = Outcome.ret c) ∧ (∃ c, s.Limit size = Outcome.ret c)) ∧
    (∀ msg, s.Split n = Outcome.panic msg → (s.SplitCall n).received = []) ∧
    (∀ msg, s.SplitSteam n = Outcome.panic msg → (s.SplitSteamCall n).received = []) ∧
    (∀ msg, s.Tail n = Outcome.panic msg → (s.TailCall n).received = []) ∧
    (∀ msg, s.Head n = Outcome.panic msg → (s.HeadCall n).received = []) ∧
    (∀ msg, s.Skip size = Outcome.panic msg → (s.SkipCall size).received = []) ∧
    (∀ msg, s.Limit size = Outcome.panic msg → (s.LimitCall size).received = []) := by
  refine ⟨fun h => ?_, fun h => ?_, fun h => ?_, fun h => ?_, fun msg hp => ?_,
    fun msg hp => ?_, fun msg hp => ?_, fun msg hp => ?_, fun msg hp => ?_, fun msg hp => ?_⟩
  · simp only [Stream.Split, Stream.SplitCall, Stream.SplitSteam, Stream.SplitSteamCall,
      Stream.Tail, Stream.TailCall, Stream.Head, Stream.HeadCall, Call.panics, h, if_true,
      and_self]
  · have hnot : ¬ n < 1 := by omega
    simp only [Stream.Split, Stream.SplitCall, Stream.SplitSteam, Stream.SplitSteamCall,
      Stream.Tail, Stream.TailCall, Stream.Head, Stream.HeadCall, Call.go, hnot, if_false]
    refine ⟨⟨_, rfl⟩, ⟨_, rfl⟩, ⟨_, rfl⟩, fun hfit => ?_, fun hout => ?_⟩
    · simp only [hfit, Bool.false_eq_true, if_false]
      exact ⟨_, rfl⟩
    · simp only [hout, if_true, Call.panics]
  · have h0 : ¬ size = 0 := by omega
    simp only [Stream.Skip, Stream.SkipCall, Stream.Limit, Stream.LimitCall, Call.panics, h0,
      h, if_true, if_false, and_self]
  · by_cases h0 : size = 0
    · simp only [Stream.Skip, Stream.SkipCall, Stream.Limit, Stream.LimitCall, Call.returns,
        h0, if_true]
      exact ⟨⟨_, rfl⟩, ⟨_, rfl⟩⟩
    · have hneg : ¬ size < 0 := by omega
      simp only [Stream.Skip, Stream.SkipCall, Stream.Limit, Stream.LimitCall, Call.go, h0,
        hneg, if_false]
      exact ⟨⟨_, rfl⟩, ⟨_, rfl⟩⟩
  · simp only [Stream.Split, Stream.SplitCall] at hp ⊢
    split at hp
    · simp only [*, if_true, Call.panics]
    · simp only [Call.go] at hp
      cases hp
  · simp only [Stream.SplitSteam, Stream.SplitSteamCall] at hp ⊢
    split at hp
    · simp only [*, if_true, Call.panics]
    · split at hp
      · simp only [*, if_true, if_false, Call.panics]
      · simp only [Call.go] at hp
        cases hp
  · simp only [Stream.Tail, Stream.TailCall] at hp ⊢
    split at hp
    · simp only [*, if_true, Call.panics]
    · simp only [Call.go] at hp
      cases hp
  · simp only [Stream.Head, Stream.HeadCall] at hp ⊢
    split at hp
    · simp only [*, if_true, Call.panics]
    · simp only [Call.go] at hp
      cases hp
  · simp only [Stream.Skip, Stream.SkipCall] at hp ⊢
    split at hp
    · simp only [*, if_true, Call.returns]
    · split at hp
      · simp only [*, if_true, if_false, Call.panics]
      · simp only [Call.go] at hp
        cases hp
  · simp only [Stream.Limit, Stream.LimitCall] at hp ⊢
    split at hp
    · simp only [*, if_true, Call.returns]
    · split at hp
      · simp only [*, if_true, if_false, Call.panics]
      · simp only [Call.go] at hp
        cases hp

theorem size_arguments_validated_witness :
    ((0 : Int) < 1 ∧ (-1 : Int) < 0) ∧
    (Range (Of [1, 2, 3]) 0 0).Tail 0 = Outcome.panic "n should be greater than 0" ∧
    ((Range (Of [1, 2, 3]) 0 0).TailCall 0).received = [] ∧
    (Range (Of [1, 2, 3]) 0 0).Limit (-1) = Outcome.panic "size must be greater than -1" ∧
    ((Range (Of [1, 2, 3]) 0 0).LimitCall (-1)).received = [] :=
  have T := size_arguments_validated (Range (Of [1, 2, 3]) 0 0) 0 (-1)
  ⟨⟨by decide, by decide⟩, (T.1 (by decide)).2.2.1,
    T.2.2.2.2.2.2.1 _ (T.1 (by decide)).2.2.1,
    (T.2.2.1 (by decide)).2,
    T.2.2.2.2.2.2.2.2.2 _ (T.2.2.1 (by decide)).2⟩

/-! ## Reverse -/


theorem swap_length {α : Type} (items : List α) (i opp : Nat) :
    (swap items i opp).length = items.length := by
  unfold swap
  split <;> simp

theorem swap_getElem? {α : Type} (items : List α) (i opp : Nat) (hi : i < items.length)
    (ho : opp < items.length) (j : Nat) :
    (swap items i opp)[j]? =
      if j = opp then items[i]? else if j = i then items[opp]? else items[j]? := by
  unfold swap
  rw [List.getElem?_eq_getElem hi, List.getElem?_eq_getElem ho]
  simp only [List.getElem?_set, List.length_set]
  by_cases h1 : j = opp
  · subst h1
    simp [ho]
  · by_cases h2 : j = i
    · subst h2
      simp [hi, h1, Ne.symm h1]
    · simp [h1, h2, Ne.symm h1, Ne.symm h2]

theorem reverseLoop_length {α : Type} (k : Nat) (items : List α) :
    (reverseLoop items k).length = items.length := by
  induction k generalizing items with
  | zero => rfl
  | succ k ih => simp only [reverseLoop, ih, swap_length]

/-- After the rounds `i = k - 1, ..., 0` the first `k` and the last `k` items have changed
places, end for end, and the items between them are where they were. -/
theorem reverseLoop_getElem? {α : Type} (k : Nat) (items : List α)
    (hk : 2 * k ≤ items.length) (j : Nat) :
    (reverseLoop items k)[j]? =
      if j < k ∨ (items.length - k ≤ j ∧ j < items.length) then
        items[items.length - 1 - j]?
      else items[j]? := by
  induction k generalizing items with
  | zero =>
    have : ¬ (j < 0 ∨ (items.length - 0 ≤ j ∧ j < items.length)) := by omega
    simp only [reverseLoop, this, if_false]
  | succ k ih =>
    have hlen := swap_length items k (items.length - 1 - k)
    have hsw := swap_getElem? items k (items.length - 1 - k) (by omega) (by omega)
    simp only [reverseLoop]
    rw [ih _ (by rw [hlen]; omega), hlen, hsw, hsw]
    by_cases h1 : j < k
    · have c1 : j < k ∨ (items.length - k ≤ j ∧ j < items.length) := Or.inl h1
      have c2 : j < k + 1 ∨ (items.length - (k + 1) ≤ j ∧ j < items.length) :=
        Or.inl (by omega)
      have c3 : ¬ items.length - 1 - j = items.length - 1 - k := by omega
      have c4 : ¬ items.length - 1 - j = k := by omega
      rw [if_pos c1, if_pos c2, if_neg c3, if_neg c4]
    · by_cases h2 : j = k
      · have c1 : ¬ (j < k ∨ (items.length - k ≤ j ∧ j < items.length)) := by omega
        have c2 : j < k + 1 ∨ (items.length - (k + 1) ≤ j ∧ j < items.length) :=
          Or.inl (by omega)
        have c3 : ¬ j = items.length - 1 - k := by omega
        rw [if_neg c1, if_pos c2, if_neg c3, if_pos h2, h2]
      · by_cases h3 : j = items.length - 1 - k
        · have c1 : ¬ (j < k ∨ (items.length - k ≤ j ∧ j < items.length)) := by omega
          have c2 : j < k + 1 ∨ (items.length - (k + 1) ≤ j ∧ j < items.length) :=
            Or.inr (by omega)
          have c5 : items.length - 1 - j = k := by omega
          rw [if_neg c1, if_pos c2, if_pos h3, c5]
        · by_cases h4 : items.length - k ≤ j ∧ j < items.length
          · have c1 : j < k ∨ (items.length - k ≤ j ∧ j < items.length) := Or.inr h4
            have c2 : j < k + 1 ∨ (items.length - (k + 1) ≤ j ∧ j < items.length) :=
              Or.inr (by omega)
            have c3 : ¬ items.length - 1 - j = items.length - 1 - k := by omega
            have c4 : ¬ items.length - 1 - j = k := by omega
            rw [if_pos c1, if_pos c2, if_neg c3, if_neg c4]
          · have c1 : ¬ (j < k ∨ (items.length - k ≤ j ∧ j < items.length)) := by omega
            have c2 : ¬ (j < k + 1 ∨ (items.length - (k + 1) ≤ j ∧ j < items.length)) := by
              omega
            rw [if_neg c1, if_neg c2, if_neg h3, if_neg h2]

/-- The loop of `Reverse`, started at `len(items)/2 - 1`, reverses the slice. -/
theorem reverseLoop_eq_reverse {α : Type} (items : List α) :
    reverseLoop items (items.length / 2) = items.reverse := by
  apply List.ext_getElem?
  intro j
  rw [reverseLoop_getElem? _ _ (by omega)]
  by_cases hj : j < items.length
  · rw [List.getElem?_reverse hj]
    by_cases hc : j < items.length / 2 ∨ (items.length - items.length / 2 ≤ j ∧
        j < items.length)
    · rw [if_pos hc]
    · rw [if_neg hc]
      have : items.length - 1 - j = j := by omega
      rw [this]
  · have hc : ¬ (j < items.length / 2 ∨ (items.length - items.length / 2 ≤ j ∧
        j < items.length)) := by omega
    rw [if_neg hc, List.getElem?_eq_none (by omega),
      List.getElem?_eq_none (by rw [List.length_reverse]; omega)]

/-- C15: on a source that delivers a finite sequence `xs` and is then closed, `Reverse`
returns a stream that yields the items of `xs` in the reverse order, for odd and even lengths
alike, and `Reverse` on that stream yields `xs` again. -/
theorem Reverse_yields_reverse {α : Type} (s : Stream α) (hclosed : s.source.closed = true) :
    s.Reverse = Outcome.ret (Of s.source.items.reverse) ∧
    ∀ chan ptr : Nat,
      (Range (Of s.source.items.reverse) chan ptr).Reverse = Outcome.ret (Of s.source.items) := by
  refine ⟨?_, fun chan ptr => ?_⟩
  · simp only [Stream.Reverse, hclosed, if_true, reverseLoop_eq_reverse]
  · simp only [Stream.Reverse, Range, Of, if_true, reverseLoop_eq_reverse, List.reverse_reverse]

theorem Reverse_yields_reverse_witness :
    (Range (Of [1, 2, 3, 4, 1]) 0 0).source.closed = true ∧
    (Range (Of [1, 2, 3, 4, 1]) 0 0).Reverse = Outcome.ret (Of [1, 4, 3, 2, 1]) ∧
    (Range (Of [1, 4, 3, 2, 1]) 0 0).Reverse = Outcome.ret (Of [1, 2, 3, 4, 1]) :=
  ⟨rfl, (Reverse_yields_reverse (Range (Of [1, 2, 3, 4, 1]) 0 0) rfl).1,
    (Reverse_yields_reverse (Range (Of [1, 2, 3, 4, 1]) 0 0) rfl).2 0 0⟩

/-! ## Sort -/

/-- Insertion sort by "not greater" meets the contract of `sort.Slice`. -/
theorem insertionSort_sortsSlices {α : Type} :
    SortsSlices (fun (less : α → α → Bool) (items : List α) =>
      items.insertionSort (fun a b => less b a = false)) := by
  intro less hless items
  refine ⟨List.perm_insertionSort _ items, ?_⟩
  haveI : IsTotal α (fun a b => less b a = false) := ⟨fun a b => by
    cases hba : less b a with
    | false => exact Or.inl rfl
    | true =>
      right
      cases hab : less a b with
      | false => rfl
      | true =>
        have := hless.trans a b a hab hba
        rw [hless.irrefl a] at this
        cases this⟩
  haveI : IsTrans α (fun a b => less b a = false) :=
    ⟨fun a b c hab hbc => hless.incomp_trans c b a hbc hab⟩
  exact List.sorted_insertionSort (fun a b => less b a = false) items

theorem natLt_strictWeakOrder : StrictWeakOrder (fun a b : Nat => decide (a < b)) := by
  constructor
  · intro a; simp
  · intro a b c hab hbc
    simp only [decide_eq_true_eq] at *
    omega
  · intro a b c hab hbc
    simp only [decide_eq_false_iff_not] at *
    omega

/-- C16: with a `sort.Slice` that meets its contract, for every source that delivers a finite
sequence `xs` and is then closed and every `less` that is a strict weak ordering,
`Sort(less)` returns a stream that yields a permutation of `xs` in which no item is less
than an item yielded before it. -/
theorem Sort_yields_sorted_perm {α : Type} (sortSlice : (α → α → Bool) → List α → List α)
    (hlib : SortsSlices sortSlice) (s : Stream α) (less : α → α → Bool)
    (hless : StrictWeakOrder less) (hclosed : s.source.closed = true) :
    ∃ items : List α,
      s.Sort sortSlice less = Outcome.ret (Of items) ∧
      items.Perm s.source.items ∧
      items.Pairwise (fun a b => less b a = false) := by
  refine ⟨sortSlice less s.source.items, ?_, (hlib less hless _).1, (hlib less hless _).2⟩
  simp only [Stream.Sort, hclosed, if_true]

theorem Sort_yields_sorted_perm_witness :
    SortsSlices (fun (less : Nat → Nat → Bool) (items : List Nat) =>
      items.insertionSort (fun a b => less b a = false)) ∧
    StrictWeakOrder (fun a b : Nat => decide (a < b)) ∧
    (Range (Of [4, 2, 1, 441, 23, 14, 1, 23]) 0 0).source.closed = true ∧
    (Range (Of [4, 2, 1, 441, 23, 14, 1, 23]) 0 0).Sort
      (fun less items => items.insertionSort (fun a b => less b a = false))
      (fun a b => decide (a < b)) = Outcome.ret (Of [1, 1, 2, 4, 14, 23, 23, 441]) ∧
    ∃ items : List Nat,
      (Range (Of [4, 2, 1, 441, 23, 14, 1, 23]) 0 0).Sort
        (fun less items => items.insertionSort (fun a b => less b a = false))
        (fun a b => decide (a < b)) = Outcome.ret (Of items) ∧
      items.Perm [4, 2, 1, 441, 23, 14, 1, 23] ∧
      items.Pairwise (fun a b => decide (b < a) = false) :=
  ⟨insertionSort_sortsSlices, natLt_strictWeakOrder, rfl, by decide,
    Sort_yields_sorted_perm _ insertionSort_sortsSlices
      (Range (Of [4, 2, 1, 441, 23, 14, 1, 23]) 0 0) _ natLt_strictWeakOrder rfl⟩

/-! ## The channel written by Head -/

/-- C19: for every `n >= 1` and every source that delivers a finite sequence `xs` (of a
length that an `int` can hold, so that the counter of `Head` does not wrap) and is then
closed, the goroutine of `Head(n)` sends the first `min(len(xs), n)` items and then closes its
channel, once, as its last operation on it, whether `xs` has fewer than `n`, exactly `n` or
more than `n` items.  Every item of the source is received: the counter ends at
`n - len(xs)`.  When `xs` has more than `n` items the channel is closed in the round of the
`n`-th item, and the rounds of the items after it do nothing to the channel. -/
theorem Head_closes_once {α : Type} (s : Stream α) (n : Int) (hn : 1 ≤ n) (hn64 : n < 2 ^ 63)
    (hlen : (s.source.items.length : Int) < 2 ^ 63) (hclosed : s.source.closed = true) :
    headProducer n s.source =
      (s.source.items.take (min s.source.items.length n.toNat)).map ChanOp.send ++
        [ChanOp.close] ∧
    (rangeLoop headBody n s.source.items).1 = n - s.source.items.length ∧
    (n < s.source.items.length →
      rangeLoop headBody n (s.source.items.take n.toNat) =
        (0, (s.source.items.take n.toNat).map ChanOp.send ++ [ChanOp.close]) ∧
      rangeLoop headBody 0 (s.source.items.drop n.toNat) =
        (n - s.source.items.length, [])) := by
  have hloop := headLoop_spec s.source.items n (by omega) hn64
  have htake : s.source.items.take (min s.source.items.length n.toNat) =
      s.source.items.take n.toNat := by
    rw [List.take_eq_take]; omega
  refine ⟨?_, by rw [hloop], fun hlt => ?_⟩
  · simp only [headProducer, producer, hloop, hclosed, if_true, htake, List.append_assoc]
    by_cases hle : n ≤ (s.source.items.length : Int)
    · have e1 : 1 ≤ n ∧ n ≤ (s.source.items.length : Int) := ⟨hn, hle⟩
      have e2 : ¬ (n - (s.source.items.length : Int) > 0) := by omega
      rw [if_pos e1, if_neg e2, List.append_nil]
    · have e1 : ¬ (1 ≤ n ∧ n ≤ (s.source.items.length : Int)) := by omega
      have e2 : n - (s.source.items.length : Int) > 0 := by omega
      rw [if_neg e1, if_pos e2, List.nil_append]
  · have hlt1 : (s.source.items.take n.toNat).length = n.toNat := by
      rw [List.length_take]; omega
    have hlt2 : ((s.source.items.drop n.toNat).length : Int) =
        s.source.items.length - n := by
      rw [List.length_drop]; omega
    have hfirst := headLoop_spec (s.source.items.take n.toNat) n (by rw [hlt1]; omega) hn64
    have hcond : 1 ≤ n ∧ n ≤ ((s.source.items.take n.toNat).length : Int) := by
      rw [hlt1]; omega
    rw [if_pos hcond, List.take_take, min_self, hlt1] at hfirst
    have hrest := headLoop_spec (s.source.items.drop n.toNat) 0 (by rw [hlt2]; omega)
      (by norm_num)
    have hcond2 : ¬ ((1 : Int) ≤ 0 ∧ (0 : Int) ≤ ((s.source.items.drop n.toNat).length : Int)) := by
      omega
    rw [if_neg hcond2, hlt2] at hrest
    refine ⟨?_, ?_⟩
    · rw [hfirst]
      congr 1
      omega
    · rw [hrest]
      refine Prod.ext (by simp only []; omega) ?_
      simp

theorem Head_closes_once_witness :
    (1 : Int) ≤ 2 ∧ (2 : Int) < 2 ^ 63 ∧
    ((Range (Of [1, 232, 3, 2, 3]) 0 0).source.items.length : Int) < 2 ^ 63 ∧
    (Range (Of [1, 232, 3, 2, 3]) 0 0).source.closed = true ∧
    headProducer 2 (Range (Of [1, 232, 3, 2, 3]) 0 0).source =
      [ChanOp.send 1, ChanOp.send 232, ChanOp.close] :=
  ⟨by decide, by decide, by decide, rfl,
    (Head_closes_once (Range (Of [1, 232, 3, 2, 3]) 0 0) 2 (by decide) (by decide)
      (by decide) rfl).1⟩

/-! ## WithOption -/

/-- C21: `loadOptions(WithOption(o))` returns the default `workSize`, 10000, whatever `o` is:
for `o.workSize = 5` it is not `o.workSize`.  The closure of `WithOption` assigns `options`
to its own parameter and leaves the `Options` of `loadOptions` as they are. -/
theorem WithOption_leaves_workSize :
    (loadOptions [WithOption { workSize := 5 }]).workSize = 10000 ∧
    (loadOptions [WithOption { workSize := 5 }]).workSize ≠
      ({ workSize := 5 } : Options).workSize ∧
    ∀ o : Options, (loadOptions [WithOption o]).workSize = 10000 := by
  refine ⟨by decide, by decide, fun o => ?_⟩
  simp [loadOptions, WithOption, DefaultAntsPoolSize]

end GoStream
